import Mathlib

/-!
Verification of the parallel cleaning framework in
src/hotspot/share/gc/shared/parallelCleaning.cpp and of the passive lock
record in src/hotspot/share/runtime/basicLock.hpp.

Shallow embedding conventions:

* The alive compiled units of the code cache are the external registry the
  task traverses.  The registry is not part of this repository's sources;
  following the specification ("an ordered 'next alive unit' relation",
  "first alive unit lookup"), the alive units of one pass are modelled as
  the indices 0, 1, ..., M-1 in registry order, and the iterator's
  next-step from unit i yields unit i+1 when i+1 < M.
* `CompiledMethod*` values that can be NULL are modelled as `Option Nat`
  over unit indices.  `Atomic::cmpxchg` success/failure becomes the two
  cases of a step relation on an interleaved global state.
* The `volatile int` single-claim flags (0/1, advanced only by
  `Atomic::cmpxchg(1, &flag, 0)`) are modelled as `Bool`.
* The class registry traversed by `ClassLoaderDataGraphKlassIteratorAtomic`
  is external too; following the specification ("each 'next' call returns a
  not-yet-visited class ...; guarantees each class is returned to exactly
  one caller across all workers") it is modelled as a list of Booleans in
  iterator order, `true` marking an instance class, with a shared atomic
  position.
* Concurrency is modelled by small-step interleaving relations: each
  constructor of a step relation is one atomic shared-memory event of one
  worker (a read of the cursor, one compare-and-swap, one do_unloading
  call, one iterator step, ...), and reachability is the reflexive
  transitive closure from the constructed initial state.
-/

set_option autoImplicit false

/-- Increment a `Nat`-valued counter function at one point. -/
def bump (f : Nat → Nat) (i : Nat) : Nat → Nat :=
  fun j => if j = i then f j + 1 else f j

/-! ## CodeCacheUnloadingTask: the batched cursor claim

Embedding of `CodeCacheUnloadingTask::claim_nmethods`
(parallelCleaning.cpp lines 79-101).  One *successful* execution observes
the shared cursor `_claimed_nmethod` equal to `first`, walks the alive
iterator from `first` for at most `MaxClaimNmethods` steps collecting the
batch, and installs the last walked unit as the new cursor with a
compare-and-swap.  The walk from unit `c` yields units `c+1, ..., c+k`
with `k = min K (M-1-c)`; the batch-size bound `MaxClaimNmethods` is the
parameter `K`. -/
def claimBatch (K M : Nat) (first : Option Nat) : List Nat × Option Nat :=
  match first with
  | none => ([], none)
  | some c =>
    let k := min K (M - 1 - c)
    (List.range' (c + 1) k, some (c + k))

/-- The sequence of batches returned by repeatedly calling
`claim_nmethods` from cursor value `first` until an empty batch is
returned (the `while (true)` loop of `CodeCacheUnloadingTask::work`,
lines 113-123, run by a single claimer), together with the final cursor.
`fuel` bounds the number of claims; `fuel = M` always suffices. -/
def claimAllFrom (K M : Nat) : Nat → Option Nat → List (List Nat) × Option Nat
  | _, none => ([], none)
  | 0, some c => ([], some c)
  | fuel+1, some c =>
    let p := claimBatch K M (some c)
    if p.1 = [] then ([], p.2)
    else
      let q := claimAllFrom K M fuel p.2
      (p.1 :: q.1, q.2)

/-- Embedding of the `CodeCacheUnloadingTask` constructor
(parallelCleaning.cpp lines 60-72): scan for the first alive unit, record
it as both `_first_nmethod` and `_claimed_nmethod`.  Returns the pair
`(_first_nmethod, _claimed_nmethod)`. -/
def codeCacheCtor (M : Nat) : Option Nat × Option Nat :=
  let first : Option Nat := if 0 < M then some 0 else none
  (first, first)

/-- Worker status inside `CodeCacheUnloadingTask::work` (lines 103-124).
`entry` is before the worker-0 sentinel check; `reading` is about to read
`_claimed_nmethod` at the top of the claim loop; `casing f` holds the
observed cursor value `f` and is about to compare-and-swap; `unloading l`
holds the successfully claimed units not yet passed to `do_unloading`. -/
inductive CCWSt
  | entry
  | reading
  | casing (first : Option Nat)
  | unloading (pending : List Nat)
  | done
  deriving DecidableEq

/-- The units a worker has claimed but not yet unloaded. -/
def statusPend : CCWSt → List Nat
  | .unloading l => l
  | _ => []

/-- Interleaved global state of one `CodeCacheUnloadingTask` pass with `N`
workers: the two shared `CompiledMethod*` fields, the per-unit count of
`do_unloading` invocations, and each worker's control point. -/
structure CCState (N : Nat) where
  firstNm : Option Nat
  cursor : Option Nat
  counts : Nat → Nat
  wst : Fin N → CCWSt

/-- Number of pending (claimed, not yet unloaded) occurrences of unit `i`
across all workers. -/
def pend {N : Nat} (s : CCState N) (i : Nat) : Nat :=
  ∑ w, (statusPend (s.wst w)).count i

/-- Initial state of a pass: fields as set by the constructor
(`codeCacheCtor`), all counts zero, every worker at its entry point. -/
def ccInit (M N : Nat) : CCState N :=
  { firstNm := (codeCacheCtor M).1
    cursor := (codeCacheCtor M).2
    counts := fun _ => 0
    wst := fun _ => CCWSt.entry }

/-- One atomic step of the interleaved execution of
`CodeCacheUnloadingTask::work` (lines 103-124) together with
`claim_nmethods` (lines 79-101).

* `entrySentinel`/`entrySkip`: the worker-0 sentinel path, lines 105-108.
* `readCursor`: `first = _claimed_nmethod`, line 86.
* `casSuccess`: the compare-and-swap on line 100 observes `first`
  unchanged, installs the end of the walked batch, and `claim_nmethods`
  returns; an empty batch ends the work loop (line 116-118).
* `casFailure`: the compare-and-swap observes a changed cursor and the
  do-while retries.
* `unloadOne`: one `claimed_nmethods[i]->do_unloading(...)` call,
  line 121; after the last one the worker returns to the claim loop. -/
inductive CCStep (M K : Nat) {N : Nat} : CCState N → CCState N → Prop
  | entrySentinel (s : CCState N) (w : Fin N) (f : Nat) :
      s.wst w = CCWSt.entry → w.val = 0 → s.firstNm = some f →
      CCStep M K s { s with firstNm := none, counts := bump s.counts f,
                            wst := Function.update s.wst w CCWSt.reading }
  | entrySkip (s : CCState N) (w : Fin N) :
      s.wst w = CCWSt.entry → (w.val ≠ 0 ∨ s.firstNm = none) →
      CCStep M K s { s with wst := Function.update s.wst w CCWSt.reading }
  | readCursor (s : CCState N) (w : Fin N) :
      s.wst w = CCWSt.reading →
      CCStep M K s { s with wst := Function.update s.wst w (CCWSt.casing s.cursor) }
  | casSuccess (s : CCState N) (w : Fin N) (f : Option Nat) :
      s.wst w = CCWSt.casing f → s.cursor = f →
      CCStep M K s { s with cursor := (claimBatch K M f).2,
                            wst := Function.update s.wst w
                              (if (claimBatch K M f).1 = [] then CCWSt.done
                               else CCWSt.unloading (claimBatch K M f).1) }
  | casFailure (s : CCState N) (w : Fin N) (f : Option Nat) :
      s.wst w = CCWSt.casing f → s.cursor ≠ f →
      CCStep M K s { s with wst := Function.update s.wst w CCWSt.reading }
  | unloadOne (s : CCState N) (w : Fin N) (u : Nat) (rest : List Nat) :
      s.wst w = CCWSt.unloading (u :: rest) →
      CCStep M K s { s with counts := bump s.counts u,
                            wst := Function.update s.wst w
                              (if rest = [] then CCWSt.reading
                               else CCWSt.unloading rest) }

/-- Reachability of a global state of the code-cache pass from the freshly
constructed task. -/
def CCReachable (M K N : Nat) (s : CCState N) : Prop :=
  Relation.ReflTransGen (CCStep M K) (ccInit M N) s

/-- Invariant of the code-cache pass for `0 < M`: the cursor is a valid
unit index; the sentinel unit 0 is counted exactly when worker 0 has
passed its entry check; every unit up to the cursor is accounted for
exactly once (already unloaded or pending at exactly one worker); units
past the cursor are untouched; a finished worker certifies the cursor is
at the last unit. -/
def CCInv (M : Nat) {N : Nat} (s : CCState N) : Prop :=
  ∃ c, s.cursor = some c ∧ c ≤ M - 1 ∧
    ((s.firstNm = some 0 ∧ s.counts 0 = 0 ∧
        ∀ w : Fin N, w.val = 0 → s.wst w = CCWSt.entry) ∨
      (s.firstNm = none ∧ s.counts 0 = 1)) ∧
    pend s 0 = 0 ∧
    (∀ i, 1 ≤ i → i ≤ c → s.counts i + pend s i = 1) ∧
    (∀ i, c < i → s.counts i = 0 ∧ pend s i = 0) ∧
    (∀ w, s.wst w = CCWSt.done → c = M - 1)

/-! ## The single-claim gate

Embedding of `KlassCleaningTask::claim_clean_klass_tree_task`
(parallelCleaning.cpp lines 131-137) and of the textually identical
`JVMCICleaningTask::claim_cleaning_task` (lines 169-175): a fast-path read
of the flag followed by `Atomic::cmpxchg(1, &flag, 0) == 0`. -/

/-- Caller status inside the single-claim gate: `idle` before the
fast-path load, `sawZero` after loading 0 and before the
compare-and-swap, then returned `true` or `false`. -/
inductive GateSt
  | idle
  | sawZero
  | doneTrue
  | doneFalse
  deriving DecidableEq

/-- Interleaved global state of one single-claim gate invoked by `N`
callers: the shared flag and each caller's control point. -/
structure GateState (N : Nat) where
  claimed : Bool
  gst : Fin N → GateSt

/-- Initial gate state: flag unclaimed (constructor sets the field to 0,
lines 126-129 and 165-167), no caller started. -/
def gateInit (N : Nat) : GateState N :=
  { claimed := false, gst := fun _ => GateSt.idle }

/-- One atomic step of the gate: the fast-path load (line 132) or the
compare-and-swap (line 136). -/
inductive GateStep {N : Nat} : GateState N → GateState N → Prop
  | loadOne (s : GateState N) (w : Fin N) :
      s.gst w = GateSt.idle → s.claimed = true →
      GateStep s { s with gst := Function.update s.gst w GateSt.doneFalse }
  | loadZero (s : GateState N) (w : Fin N) :
      s.gst w = GateSt.idle → s.claimed = false →
      GateStep s { s with gst := Function.update s.gst w GateSt.sawZero }
  | casWin (s : GateState N) (w : Fin N) :
      s.gst w = GateSt.sawZero → s.claimed = false →
      GateStep s { s with claimed := true,
                          gst := Function.update s.gst w GateSt.doneTrue }
  | casLose (s : GateState N) (w : Fin N) :
      s.gst w = GateSt.sawZero → s.claimed = true →
      GateStep s { s with gst := Function.update s.gst w GateSt.doneFalse }

/-- Reachability of a gate state from the fresh gate. -/
def GateReachable (N : Nat) (s : GateState N) : Prop :=
  Relation.ReflTransGen GateStep (gateInit N) s

/-- Number of callers to which the gate returned `true`. -/
def gateWinners {N : Nat} (s : GateState N) : Nat :=
  ∑ w, if s.gst w = GateSt.doneTrue then 1 else 0

/-- Gate invariant: while the flag is unset nobody has passed it, and the
number of winners is 1 exactly when the flag is set. -/
def GateInv {N : Nat} (s : GateState N) : Prop :=
  (s.claimed = false → ∀ w, s.gst w = GateSt.idle ∨ s.gst w = GateSt.sawZero) ∧
  gateWinners s = (if s.claimed then 1 else 0)

/-! ## JVMCICleaningTask

Embedding of `JVMCICleaningTask::work` (parallelCleaning.cpp lines
177-182): `if (unloading_occurred && EnableJVMCI && claim_cleaning_task())
JVMCI::do_unloading(unloading_occurred);`.  The guard is evaluated before
the claim is attempted; the winner of the gate performs the one
`JVMCI::do_unloading` call. -/

/-- Worker status inside `JVMCICleaningTask::work`: `winner` has won the
claim and is about to call `JVMCI::do_unloading`. -/
inductive JSt
  | idle
  | sawZero
  | winner
  | done
  deriving DecidableEq

/-- Interleaved global state of one `JVMCICleaningTask` pass: the
`_cleaning_claimed` flag, the number of `JVMCI::do_unloading` calls, and
each worker's control point. -/
structure JState (N : Nat) where
  cleaningClaimed : Bool
  unloadCalls : Nat
  jst : Fin N → JSt

/-- Initial state: flag 0 (constructor, lines 165-167), no calls. -/
def jvmciInit (N : Nat) : JState N :=
  { cleaningClaimed := false, unloadCalls := 0, jst := fun _ => JSt.idle }

/-- One atomic step of `JVMCICleaningTask::work` with guard parameters
`unloading` (`unloading_occurred`) and `enable` (`EnableJVMCI`). -/
inductive JStep (unloading enable : Bool) {N : Nat} : JState N → JState N → Prop
  | guardFalse (s : JState N) (w : Fin N) :
      s.jst w = JSt.idle → (unloading && enable) = false →
      JStep unloading enable s { s with jst := Function.update s.jst w JSt.done }
  | loadOne (s : JState N) (w : Fin N) :
      s.jst w = JSt.idle → (unloading && enable) = true → s.cleaningClaimed = true →
      JStep unloading enable s { s with jst := Function.update s.jst w JSt.done }
  | loadZero (s : JState N) (w : Fin N) :
      s.jst w = JSt.idle → (unloading && enable) = true → s.cleaningClaimed = false →
      JStep unloading enable s { s with jst := Function.update s.jst w JSt.sawZero }
  | casWin (s : JState N) (w : Fin N) :
      s.jst w = JSt.sawZero → s.cleaningClaimed = false →
      JStep unloading enable s { s with cleaningClaimed := true,
                                        jst := Function.update s.jst w JSt.winner }
  | casLose (s : JState N) (w : Fin N) :
      s.jst w = JSt.sawZero → s.cleaningClaimed = true →
      JStep unloading enable s { s with jst := Function.update s.jst w JSt.done }
  | callUnload (s : JState N) (w : Fin N) :
      s.jst w = JSt.winner →
      JStep unloading enable s { s with unloadCalls := s.unloadCalls + 1,
                                        jst := Function.update s.jst w JSt.done }

/-- Reachability of a `JVMCICleaningTask` state from the fresh task. -/
def JReachable (unloading enable : Bool) (N : Nat) (s : JState N) : Prop :=
  Relation.ReflTransGen (JStep unloading enable) (jvmciInit N) s

/-- Number of workers currently holding the won claim and about to call
`JVMCI::do_unloading`. -/
def jWinnerHolders {N : Nat} (s : JState N) : Nat :=
  ∑ w, if s.jst w = JSt.winner then 1 else 0

/-- Invariant of the JVMCI pass. -/
def JInv (unloading enable : Bool) {N : Nat} (s : JState N) : Prop :=
  ((unloading && enable) = false →
    s.cleaningClaimed = false ∧ s.unloadCalls = 0 ∧
      ∀ w, s.jst w = JSt.idle ∨ s.jst w = JSt.done) ∧
  (s.cleaningClaimed = false → s.unloadCalls = 0) ∧
  (s.cleaningClaimed = false → (unloading && enable) = true →
    ∀ w, s.jst w = JSt.idle ∨ s.jst w = JSt.sawZero) ∧
  (s.cleaningClaimed = true → s.unloadCalls + jWinnerHolders s = 1)

/-! ## KlassCleaningTask

Embedding of `KlassCleaningTask` (parallelCleaning.cpp lines 126-162).
The class registry is the external iterator's sequence, modelled as
`klasses : List Bool` in iterator order (`true` = instance class); the
shared iterator position `pos` is advanced atomically by each
`_klass_iterator.next_klass()` call.  `claim_next_klass` (lines 139-147)
loops on `next_klass` until it yields an instance class or `NULL`;
`work` (lines 149-162) first tries `claim_clean_klass_tree_task` and the
winner runs `Klass::clean_subklass_tree`, then all workers loop
`claim_next_klass`/`clean_klass`. -/

/-- Worker status inside `KlassCleaningTask::work`: `tree` has won the
subclass-tree gate and is about to run `Klass::clean_subklass_tree`;
`looping` is about to call `_klass_iterator.next_klass()`;
`cleaning i` received instance class `i` from `claim_next_klass` and is
about to run `clean_klass`. -/
inductive KSt
  | idle
  | sawZero
  | tree
  | looping
  | cleaning (i : Nat)
  | done
  deriving DecidableEq

/-- Interleaved global state of one `KlassCleaningTask` pass: the
subclass-tree gate flag, the shared iterator position, the count of
`Klass::clean_subklass_tree` runs, the per-class count of `clean_klass`
runs, and each worker's control point. -/
structure KState (N : Nat) where
  treeClaimed : Bool
  pos : Nat
  treeCount : Nat
  cleanCounts : Nat → Nat
  kst : Fin N → KSt

/-- Initial state: flag 0, iterator at the first class, no cleaning
performed, no worker started (constructor, lines 126-129). -/
def klassInit (N : Nat) : KState N :=
  { treeClaimed := false, pos := 0, treeCount := 0,
    cleanCounts := fun _ => 0, kst := fun _ => KSt.idle }

/-- One atomic step of the interleaved `KlassCleaningTask` pass over the
class registry `klasses`. -/
inductive KStep (klasses : List Bool) {N : Nat} : KState N → KState N → Prop
  | loadOne (s : KState N) (w : Fin N) :
      s.kst w = KSt.idle → s.treeClaimed = true →
      KStep klasses s { s with kst := Function.update s.kst w KSt.looping }
  | loadZero (s : KState N) (w : Fin N) :
      s.kst w = KSt.idle → s.treeClaimed = false →
      KStep klasses s { s with kst := Function.update s.kst w KSt.sawZero }
  | casWin (s : KState N) (w : Fin N) :
      s.kst w = KSt.sawZero → s.treeClaimed = false →
      KStep klasses s { s with treeClaimed := true,
                               kst := Function.update s.kst w KSt.tree }
  | casLose (s : KState N) (w : Fin N) :
      s.kst w = KSt.sawZero → s.treeClaimed = true →
      KStep klasses s { s with kst := Function.update s.kst w KSt.looping }
  | treeStep (s : KState N) (w : Fin N) :
      s.kst w = KSt.tree →
      KStep klasses s { s with treeCount := s.treeCount + 1,
                               kst := Function.update s.kst w KSt.looping }
  | nextInstance (s : KState N) (w : Fin N) :
      s.kst w = KSt.looping → s.pos < klasses.length →
      klasses.getD s.pos false = true →
      KStep klasses s { s with pos := s.pos + 1,
                               kst := Function.update s.kst w (KSt.cleaning s.pos) }
  | nextSkip (s : KState N) (w : Fin N) :
      s.kst w = KSt.looping → s.pos < klasses.length →
      klasses.getD s.pos false = false →
      KStep klasses s { s with pos := s.pos + 1 }
  | nextNone (s : KState N) (w : Fin N) :
      s.kst w = KSt.looping → klasses.length ≤ s.pos →
      KStep klasses s { s with kst := Function.update s.kst w KSt.done }
  | cleanStep (s : KState N) (w : Fin N) (i : Nat) :
      s.kst w = KSt.cleaning i →
      KStep klasses s { s with cleanCounts := bump s.cleanCounts i,
                               kst := Function.update s.kst w KSt.looping }

/-- Reachability of a `KlassCleaningTask` state from the fresh task. -/
def KReachable (klasses : List Bool) (N : Nat) (s : KState N) : Prop :=
  Relation.ReflTransGen (KStep klasses) (klassInit N)  s

/-- Number of workers currently holding instance class `i` between
`claim_next_klass` and `clean_klass`. -/
def kCleaningCount {N : Nat} (s : KState N) (i : Nat) : Nat :=
  ∑ w, if s.kst w = KSt.cleaning i then 1 else 0

/-- Number of workers that won the tree gate and have not yet run
`Klass::clean_subklass_tree`. -/
def kTreeHolders {N : Nat} (s : KState N) : Nat :=
  ∑ w, if s.kst w = KSt.tree then 1 else 0

/-- Invariant of the `KlassCleaningTask` pass: the iterator position is
valid; the subclass-tree rebuild is accounted for exactly once when the
gate has been won and never before; every class already handed out by the
iterator is accounted for exactly once if it is an instance class and
never otherwise; classes not yet handed out are untouched; a finished
worker certifies the iterator is exhausted. -/
def KInv (klasses : List Bool) {N : Nat} (s : KState N) : Prop :=
  s.pos ≤ klasses.length ∧
  s.treeCount + kTreeHolders s = (if s.treeClaimed then 1 else 0) ∧
  (s.treeClaimed = false → ∀ w, s.kst w = KSt.idle ∨ s.kst w = KSt.sawZero) ∧
  (∀ i, i < s.pos →
    (klasses.getD i false = true → s.cleanCounts i + kCleaningCount s i = 1) ∧
    (klasses.getD i false = false → s.cleanCounts i = 0 ∧ kCleaningCount s i = 0)) ∧
  (∀ i, s.pos ≤ i → s.cleanCounts i = 0 ∧ kCleaningCount s i = 0) ∧
  (∀ w, s.kst w = KSt.done → s.pos = klasses.length)

/-! ## Event traces of the sequential (per-worker) executions

For the claims about the sequential structure of one worker's
`ParallelCleaningTask::work` call and about the dedup bracket, the
side-effecting calls are modelled as events. -/

/-- Observable side-effecting calls of one cleaning pass.
`jvmciUnload` is `JVMCI::do_unloading(unloading_occurred)`;
`unloadCompiled i b` is `CompiledMethod::do_unloading(b)` on alive unit
`i`; `dedupPrologue`/`dedupUnlink`/`dedupEpilogue` are
`StringDedup::gc_prologue`, `StringDedup::parallel_unlink` and
`StringDedup::gc_epilogue`; `cleanTree` is `Klass::clean_subklass_tree`;
`cleanKlass i` is `clean_klass` on registry index `i`. -/
inductive Ev
  | jvmciUnload (occurred : Bool)
  | unloadCompiled (i : Nat) (occurred : Bool)
  | dedupPrologue (resize : Bool)
  | dedupUnlink (workerId : Nat)
  | dedupEpilogue
  | cleanTree
  | cleanKlass (i : Nat)
  deriving DecidableEq

/-- Position of an event's sub-task in the per-worker call order of
`ParallelCleaningTask::work`: 1 = JVMCI, 2 = code cache, 3 = string
dedup, 4 = klass cleaning. -/
def phaseOf : Ev → Nat
  | Ev.jvmciUnload _ => 1
  | Ev.unloadCompiled _ _ => 2
  | Ev.dedupPrologue _ => 3
  | Ev.dedupUnlink _ => 3
  | Ev.dedupEpilogue => 3
  | Ev.cleanTree => 4
  | Ev.cleanKlass _ => 4

/-- Whether an event belongs to the klass-cleaning phase. -/
def isKlassEv : Ev → Bool
  | Ev.cleanTree => true
  | Ev.cleanKlass _ => true
  | _ => false

/-- Whether an event is a `StringDedup::gc_prologue` call. -/
def isDedupPrologueEv : Ev → Bool
  | Ev.dedupPrologue _ => true
  | _ => false

/-- Whether an event is a `StringDedup::gc_epilogue` call. -/
def isDedupEpilogueEv : Ev → Bool
  | Ev.dedupEpilogue => true
  | _ => false

/-- Embedding of the `StringDedupCleaningTask` constructor
(parallelCleaning.cpp lines 37-46): `gc_prologue(resize_table)` is called
exactly when the dedup subsystem is enabled. -/
def stringDedupCtorTrace (enabled resize : Bool) : List Ev :=
  if enabled then [Ev.dedupPrologue resize] else []

/-- Embedding of `StringDedupCleaningTask::work` (lines 54-58):
`parallel_unlink(..., worker_id)` is called exactly when the subsystem is
enabled. -/
def stringDedupWork (enabled : Bool) (workerId : Nat) : List Ev :=
  if enabled then [Ev.dedupUnlink workerId] else []

/-- Embedding of the `StringDedupCleaningTask` destructor (lines 48-52):
`gc_epilogue()` is called exactly when the subsystem is enabled. -/
def stringDedupDtorTrace (enabled : Bool) : List Ev :=
  if enabled then [Ev.dedupEpilogue] else []

/-- One whole dedup pass: construction, the per-worker `work` calls for
the given worker ids, destruction. -/
def stringDedupPass (enabled resize : Bool) (workerIds : List Nat) : List Ev :=
  stringDedupCtorTrace enabled resize
    ++ (workerIds.map (stringDedupWork enabled)).flatten
    ++ stringDedupDtorTrace enabled

/-- Embedding of `JVMCICleaningTask::work` (lines 177-182) executed
without interleaving (its state threading for the sequential trace
claims): returns the emitted events and the updated `_cleaning_claimed`
flag. -/
def jvmciWorkSeq (enableJVMCI unloading claimed : Bool) : List Ev × Bool :=
  if unloading && enableJVMCI then
    if claimed then ([], claimed)
    else ([Ev.jvmciUnload unloading], true)
  else ([], claimed)

/-- Embedding of `CodeCacheUnloadingTask::work` (lines 103-124) executed
without interleaving: the worker-0 sentinel unload followed by the claim
loop.  Arguments: batch bound, unit count, `unloading_occurred`, worker
id, the `_first_nmethod` and `_claimed_nmethod` fields.  Returns the
emitted events and the updated two fields. -/
def ccWorkSeqFull (K M : Nat) (unloading : Bool) (workerId : Nat)
    (first cursor : Option Nat) : List Ev × Option Nat × Option Nat :=
  let sentinel : List Nat := if workerId = 0 then first.toList else []
  let first2 : Option Nat := if workerId = 0 then none else first
  let q := claimAllFrom K M M cursor
  ((sentinel ++ q.1.flatten).map (fun i => Ev.unloadCompiled i unloading),
   first2, q.2)

/-- The registry indices visited by the `claim_next_klass`/`clean_klass`
loop of `KlassCleaningTask::work` run by a single worker over the suffix
of the registry starting at absolute index `i`: exactly the instance
classes, in iterator order. -/
def klassLoopSeq : List Bool → Nat → List Nat
  | [], _ => []
  | k :: rest, i =>
    if k then i :: klassLoopSeq rest (i + 1) else klassLoopSeq rest (i + 1)

/-- Embedding of `KlassCleaningTask::work` (lines 149-162) executed
without interleaving: the tree-gate attempt followed by the per-class
loop.  Returns the emitted events, the updated gate flag and the updated
iterator position. -/
def klassWorkSeqFull (klasses : List Bool) (claimed : Bool) (pos : Nat) :
    List Ev × Bool × Nat :=
  ((if claimed then [] else [Ev.cleanTree])
      ++ (klassLoopSeq (klasses.drop pos) pos).map Ev.cleanKlass,
   true, klasses.length)

/-- The mutable state shared by the sub-tasks of one
`ParallelCleaningTask`, threaded through the sequential executions. -/
structure SeqState where
  jvmciClaimed : Bool
  ccFirst : Option Nat
  ccCursor : Option Nat
  treeClaimed : Bool
  klassPos : Nat
  deriving DecidableEq

/-- State of a freshly constructed `ParallelCleaningTask` (lines
185-195): sub-task constructors have run, in particular the code-cache
constructor recorded the sentinel and cursor. -/
def seqInit (M : Nat) : SeqState :=
  { jvmciClaimed := false
    ccFirst := (codeCacheCtor M).1
    ccCursor := (codeCacheCtor M).2
    treeClaimed := false
    klassPos := 0 }

/-- Embedding of `ParallelCleaningTask::work` (lines 198-215) for one
worker executed without interleaving: JVMCI cleanup attempt, code-cache
unloading, string-dedup cleanup, then klass cleaning only if
`unloading_occurred`. -/
def parallelWorkSeq (dedupEnabled enableJVMCI : Bool) (K M : Nat)
    (klasses : List Bool) (unloading : Bool) (workerId : Nat)
    (st : SeqState) : List Ev × SeqState :=
  let j := jvmciWorkSeq enableJVMCI unloading st.jvmciClaimed
  let cc := ccWorkSeqFull K M unloading workerId st.ccFirst st.ccCursor
  let d := stringDedupWork dedupEnabled workerId
  let kl := if unloading then klassWorkSeqFull klasses st.treeClaimed st.klassPos
            else ([], st.treeClaimed, st.klassPos)
  (j.1 ++ cc.1 ++ d ++ kl.1,
   { jvmciClaimed := j.2, ccFirst := cc.2.1, ccCursor := cc.2.2,
     treeClaimed := kl.2.1, klassPos := kl.2.2 })

/-! ## BasicLock and BasicObjectLock

Embedding of src/hotspot/share/runtime/basicLock.hpp.  `markOop` and
`oop` are external pointer/word types; they are modelled as opaque
numeric identifiers. -/

/-- Model of the `markOop` word stored in a `BasicLock`. -/
abbrev markOop := Nat

/-- Model of an `oop` object reference. -/
abbrev oop := Nat

/-- `BasicLock` (basicLock.hpp lines 31-46): holds the displaced mark
word. -/
structure BasicLock where
  displacedHeaderField : markOop
  deriving DecidableEq

/-- `BasicLock::displaced_header()` accessor. -/
def BasicLock.displaced_header (l : BasicLock) : markOop :=
  l.displacedHeaderField

/-- `BasicLock::set_displaced_header(markOop)` mutator. -/
def BasicLock.set_displaced_header (l : BasicLock) (header : markOop) : BasicLock :=
  { l with displacedHeaderField := header }

/-- `BasicObjectLock` (basicLock.hpp lines 52-73): the embedded
`BasicLock` followed by the owning object. -/
structure BasicObjectLock where
  lockField : BasicLock
  objField : oop
  deriving DecidableEq

/-- `BasicObjectLock::obj()` accessor. -/
def BasicObjectLock.obj (b : BasicObjectLock) : oop :=
  b.objField

/-- `BasicObjectLock::set_obj(oop)` mutator. -/
def BasicObjectLock.set_obj (b : BasicObjectLock) (o : oop) : BasicObjectLock :=
  { b with objField := o }

/-- `BasicObjectLock::lock()` accessor. -/
def BasicObjectLock.lock (b : BasicObjectLock) : BasicLock :=
  b.lockField

/-! ## Concrete witness states

Explicit interleavings used to instantiate the theorems about the
concurrent models on concrete inputs. -/

/-- Gate run with two callers: caller 0 loads 0. -/
def gateW1 : GateState 2 :=
  { gateInit 2 with gst := Function.update (gateInit 2).gst 0 GateSt.sawZero }

/-- Caller 0 wins the compare-and-swap. -/
def gateW2 : GateState 2 :=
  { gateW1 with claimed := true,
                gst := Function.update gateW1.gst 0 GateSt.doneTrue }

/-- Caller 1 sees the set flag on its fast path and returns false. -/
def gateW3 : GateState 2 :=
  { gateW2 with gst := Function.update gateW2.gst 1 GateSt.doneFalse }

/-- JVMCI run with one worker and guard satisfied: the worker loads 0. -/
def jW1 : JState 1 :=
  { jvmciInit 1 with jst := Function.update (jvmciInit 1).jst 0 JSt.sawZero }

/-- The worker wins the compare-and-swap. -/
def jW2 : JState 1 :=
  { jW1 with cleaningClaimed := true,
             jst := Function.update jW1.jst 0 JSt.winner }

/-- The worker performs the one `JVMCI::do_unloading` call. -/
def jW3 : JState 1 :=
  { jW2 with unloadCalls := jW2.unloadCalls + 1,
             jst := Function.update jW2.jst 0 JSt.done }

/-- Klass run, one worker, registry `[true]`: the worker loads 0. -/
def kW1 : KState 1 :=
  { klassInit 1 with kst := Function.update (klassInit 1).kst 0 KSt.sawZero }

/-- The worker wins the subclass-tree gate. -/
def kW2 : KState 1 :=
  { kW1 with treeClaimed := true, kst := Function.update kW1.kst 0 KSt.tree }

/-- The worker runs `Klass::clean_subklass_tree`. -/
def kW3 : KState 1 :=
  { kW2 with treeCount := kW2.treeCount + 1,
             kst := Function.update kW2.kst 0 KSt.looping }

/-- The iterator yields instance class 0. -/
def kW4 : KState 1 :=
  { kW3 with pos := kW3.pos + 1,
             kst := Function.update kW3.kst 0 (KSt.cleaning kW3.pos) }

/-- The worker cleans class 0. -/
def kW5 : KState 1 :=
  { kW4 with cleanCounts := bump kW4.cleanCounts 0,
             kst := Function.update kW4.kst 0 KSt.looping }

/-- The iterator is exhausted; the worker finishes. -/
def kW6 : KState 1 :=
  { kW5 with kst := Function.update kW5.kst 0 KSt.done }

/-- Klass run, one worker, registry `[false, true]`: the worker loads 0,
wins the gate, rebuilds the tree. -/
def kX1 : KState 1 :=
  { klassInit 1 with kst := Function.update (klassInit 1).kst 0 KSt.sawZero }

/-- The worker wins the subclass-tree gate. -/
def kX2 : KState 1 :=
  { kX1 with treeClaimed := true, kst := Function.update kX1.kst 0 KSt.tree }

/-- The worker runs `Klass::clean_subklass_tree`. -/
def kX3 : KState 1 :=
  { kX2 with treeCount := kX2.treeCount + 1,
             kst := Function.update kX2.kst 0 KSt.looping }

/-- The iterator yields non-instance class 0, which is skipped. -/
def kX4 : KState 1 :=
  { kX3 with pos := kX3.pos + 1 }

/-- The iterator yields instance class 1. -/
def kX5 : KState 1 :=
  { kX4 with pos := kX4.pos + 1,
             kst := Function.update kX4.kst 0 (KSt.cleaning kX4.pos) }

/-- The worker cleans class 1. -/
def kX6 : KState 1 :=
  { kX5 with cleanCounts := bump kX5.cleanCounts 1,
             kst := Function.update kX5.kst 0 KSt.looping }

/-- The iterator is exhausted; the worker finishes. -/
def kX7 : KState 1 :=
  { kX6 with kst := Function.update kX6.kst 0 KSt.done }

/-- Code-cache run, one worker, M = 2 units, K = 3: worker 0 unloads the
sentinel unit 0 on entry. -/
def ccV1 : CCState 1 :=
  { ccInit 2 1 with firstNm := none, counts := bump (ccInit 2 1).counts 0,
                    wst := Function.update (ccInit 2 1).wst 0 CCWSt.reading }

/-- The worker reads the cursor. -/
def ccV2 : CCState 1 :=
  { ccV1 with wst := Function.update ccV1.wst 0 (CCWSt.casing ccV1.cursor) }

/-- The compare-and-swap succeeds and claims the batch `[1]`. -/
def ccV3 : CCState 1 :=
  { ccV2 with cursor := (claimBatch 3 2 (some 0)).2,
              wst := Function.update ccV2.wst 0
                (if (claimBatch 3 2 (some 0)).1 = [] then CCWSt.done
                 else CCWSt.unloading (claimBatch 3 2 (some 0)).1) }

/-- The worker unloads unit 1 and returns to the claim loop. -/
def ccV4 : CCState 1 :=
  { ccV3 with counts := bump ccV3.counts 1,
              wst := Function.update ccV3.wst 0
                (if ([] : List Nat) = [] then CCWSt.reading
                 else CCWSt.unloading []) }

/-- The worker reads the cursor again. -/
def ccV5 : CCState 1 :=
  { ccV4 with wst := Function.update ccV4.wst 0 (CCWSt.casing ccV4.cursor) }

/-- The compare-and-swap returns an empty batch; the worker finishes. -/
def ccV6 : CCState 1 :=
  { ccV5 with cursor := (claimBatch 3 2 (some 1)).2,
              wst := Function.update ccV5.wst 0
                (if (claimBatch 3 2 (some 1)).1 = [] then CCWSt.done
                 else CCWSt.unloading (claimBatch 3 2 (some 1)).1) }

/-! ## Theorems -/

/-- Updating a function at one point changes a pointwise sum by swapping
the contribution of that point. -/
theorem sum_comp_update {α : Type} {N : Nat} (g : α → Nat) (f : Fin N → α)
    (w : Fin N) (v : α) :
    (∑ x, g (Function.update f w v x)) + g (f w) = (∑ x, g (f x)) + g v := by
  classical
  have h1 : (∑ x, g (Function.update f w v x))
      = g v + ∑ x ∈ Finset.univ.erase w, g (f x) := by
    rw [← Finset.add_sum_erase Finset.univ (fun x => g (Function.update f w v x))
      (Finset.mem_univ w)]
    congr 1
    · rw [Function.update_same]
    · exact Finset.sum_congr rfl fun x hx => by
        rw [Function.update_noteq (Finset.ne_of_mem_erase hx)]
  have h2 : (∑ x, g (f x)) = g (f w) + ∑ x ∈ Finset.univ.erase w, g (f x) :=
    (Finset.add_sum_erase Finset.univ (fun x => g (f x)) (Finset.mem_univ w)).symm
  omega

/-- Instance of `sum_comp_update` for indicator sums. -/
theorem sum_ite_comp_update {σ : Type} [DecidableEq σ] {N : Nat}
    (f : Fin N → σ) (w : Fin N) (v : σ) (t : σ) :
    ((∑ x, if Function.update f w v x = t then 1 else 0) : Nat)
        + (if f w = t then 1 else 0)
      = (∑ x, if f x = t then 1 else 0) + (if v = t then 1 else 0) :=
  sum_comp_update (fun st => if st = t then 1 else 0) f w v

/-- A batch never exceeds the bound `K` (`MaxClaimNmethods`). -/
theorem claimBatch_length_le (K M : Nat) (f : Option Nat) :
    (claimBatch K M f).1.length ≤ K := by
  cases f with
  | none => simp [claimBatch]
  | some c => simp [claimBatch]

/-- A batch is empty exactly when no alive unit lies strictly past the
observed cursor. -/
theorem claimBatch_empty_iff (K M c : Nat) (hK : 1 ≤ K) :
    (claimBatch K M (some c)).1 = [] ↔ ¬ ∃ i, c < i ∧ i < M := by
  have h : (claimBatch K M (some c)).1 = [] ↔ min K (M - 1 - c) = 0 := by
    simp [claimBatch, List.range'_eq_nil]
  rw [h]
  constructor
  · rintro h0 ⟨i, hci, hiM⟩
    omega
  · intro hne
    by_contra h0
    exact hne ⟨c + 1, by omega, by omega⟩

/-- Every claimed unit lies strictly past the observed cursor and inside
the registry. -/
theorem claimBatch_mem (K M c i : Nat) (hi : i ∈ (claimBatch K M (some c)).1) :
    c < i ∧ i < M := by
  simp only [claimBatch, List.mem_range'_1] at hi
  omega

/-- Unfolding equation for `claimAllFrom` at positive fuel. -/
theorem claimAllFrom_succ (K M fuel c : Nat) :
    claimAllFrom K M (fuel + 1) (some c)
      = (if (claimBatch K M (some c)).1 = []
          then ([], (claimBatch K M (some c)).2)
          else ((claimBatch K M (some c)).1
                  :: (claimAllFrom K M fuel (claimBatch K M (some c)).2).1,
                (claimAllFrom K M fuel (claimBatch K M (some c)).2).2)) := rfl

/-- Repeated claiming from cursor `c` returns, in order, exactly the
units strictly between `c` and the end of the registry. -/
theorem claimAllFrom_flatten (K M : Nat) (hK : 1 ≤ K) :
    ∀ fuel c : Nat, M - 1 - c ≤ fuel →
      (claimAllFrom K M fuel (some c)).1.flatten = List.range' (c + 1) (M - 1 - c) := by
  intro fuel
  induction fuel with
  | zero =>
    intro c hc
    have hz : M - 1 - c = 0 := by omega
    simp [claimAllFrom, hz]
  | succ fuel ih =>
    intro c hc
    rw [claimAllFrom_succ]
    by_cases hz : M - 1 - c = 0
    · rw [if_pos]
      · simp [hz]
      · simp [claimBatch, List.range'_eq_nil]
        omega
    · rw [if_neg]
      swap
      · simp [claimBatch, List.range'_eq_nil]
        omega
      · have h1 : (claimBatch K M (some c)).1 = List.range' (c + 1) (min K (M - 1 - c)) := rfl
        have h2 : (claimBatch K M (some c)).2 = some (c + min K (M - 1 - c)) := rfl
        have hrec : (claimAllFrom K M fuel (some (c + min K (M - 1 - c)))).1.flatten
            = List.range' (c + min K (M - 1 - c) + 1) (M - 1 - (c + min K (M - 1 - c))) :=
          ih (c + min K (M - 1 - c)) (by omega)
        simp only [List.flatten_cons, h1, h2, hrec]
        have e1 : M - 1 - (c + min K (M - 1 - c)) = (M - 1 - c) - min K (M - 1 - c) := by
          omega
        have e2 : c + min K (M - 1 - c) + 1 = (c + 1) + 1 * min K (M - 1 - c) := by
          omega
        rw [e1, e2, List.range'_append]
        congr 1
        omega

/-- The units returned by repeated claiming are pairwise distinct. -/
theorem claimAllFrom_nodup (K M fuel c : Nat) (hK : 1 ≤ K)
    (hfuel : M - 1 - c ≤ fuel) :
    (claimAllFrom K M fuel (some c)).1.flatten.Nodup := by
  rw [claimAllFrom_flatten K M hK fuel c hfuel]
  exact List.nodup_range' _ _

/-- Claim C2: for every batch bound K ≥ 1 and every registry of M ≥ 0
alive units, each `claim_nmethods` call returns at most K units, every
returned unit lies strictly past the observed cursor (hence was never
returned by a prior successful claim, whose units all lie at or before
the cursor), a batch is empty exactly when no alive unit lies past the
cursor, and the concatenation of all batches claimed from cursor `c`
until empty is, without repetition, exactly the set of alive units
strictly after `c`. -/
theorem C2_batched_partition (K M c fuel : Nat) (hK : 1 ≤ K)
    (hfuel : M - 1 - c ≤ fuel) :
    (∀ f : Option Nat, (claimBatch K M f).1.length ≤ K) ∧
    ((claimBatch K M (some c)).1 = [] ↔ ¬ ∃ i, c < i ∧ i < M) ∧
    (∀ i, i ∈ (claimBatch K M (some c)).1 → c < i ∧ i < M) ∧
    (claimAllFrom K M fuel (some c)).1.flatten.Nodup ∧
    (claimAllFrom K M fuel (some c)).1.flatten = List.range' (c + 1) (M - 1 - c) := by
  refine ⟨claimBatch_length_le K M, claimBatch_empty_iff K M c hK,
    fun i hi => claimBatch_mem K M c i hi,
    claimAllFrom_nodup K M fuel c hK hfuel,
    claimAllFrom_flatten K M hK fuel c hfuel⟩

/-- Witness for C2 at K = 4, M = 10, initial cursor 0: the batches
partition exactly the units 1..9. -/
theorem C2_batched_partition_witness :
    (claimAllFrom 4 10 10 (some 0)).1.flatten = List.range' 1 9 :=
  (C2_batched_partition 4 10 0 10 (by decide) (by decide)).2.2.2.2

/-- Claim C10: `BasicObjectLock::set_obj` stores the object reference
read back by `obj()` and leaves the embedded `BasicLock` (and its
displaced header) unchanged; `BasicLock::set_displaced_header` stores the
mark word read back by `displaced_header()`. -/
theorem C10_basic_lock_accessors :
    (∀ (b : BasicObjectLock) (o : oop),
      (b.set_obj o).obj = o ∧ (b.set_obj o).lock = b.lock ∧
        ((b.set_obj o).lock).displaced_header = (b.lock).displaced_header) ∧
    (∀ (l : BasicLock) (h : markOop),
      (l.set_displaced_header h).displaced_header = h) := by
  exact ⟨fun b o => ⟨rfl, rfl, rfl⟩, fun l h => rfl⟩

/-- Flattening worker traces of a disabled dedup pass yields nothing. -/
theorem flatten_map_nil {α β : Type} (l : List α) :
    (l.map (fun _ => ([] : List β))).flatten = [] := by
  induction l with
  | nil => rfl
  | cons a t ih => simp [ih]

/-- The per-worker unlink traces contain no event satisfying a predicate
that rejects every `dedupUnlink` event. -/
theorem countP_dedup_unlinks (p : Ev → Bool)
    (h : ∀ workerId, p (Ev.dedupUnlink workerId) = false) (ids : List Nat) :
    ((ids.map (stringDedupWork true)).flatten).countP p = 0 := by
  induction ids with
  | nil => rfl
  | cons a t ih =>
    simp [stringDedupWork, List.countP_cons, ih, h a]

/-- Claim C8: if the string-deduplication subsystem is disabled, no pass
ever invokes `gc_prologue`, `gc_epilogue` or `parallel_unlink` (for any
worker); if it is enabled, `gc_prologue` is invoked exactly once, at
construction, with the requested resize flag, and `gc_epilogue` exactly
once, at destruction. -/
theorem C8_dedup_bracket (resize : Bool) (workerIds : List Nat) :
    (stringDedupPass false resize workerIds = [] ∧
      stringDedupCtorTrace false resize = [] ∧
      (∀ workerId, stringDedupWork false workerId = []) ∧
      stringDedupDtorTrace false = []) ∧
    ((stringDedupPass true resize workerIds).countP isDedupPrologueEv = 1 ∧
      (stringDedupPass true resize workerIds).count (Ev.dedupPrologue resize) = 1 ∧
      (stringDedupPass true resize workerIds).countP isDedupEpilogueEv = 1) := by
  constructor
  · refine ⟨?_, rfl, fun workerId => rfl, rfl⟩
    simp [stringDedupPass, stringDedupCtorTrace, stringDedupWork,
      stringDedupDtorTrace, flatten_map_nil]
  · have hpro := countP_dedup_unlinks isDedupPrologueEv (fun _ => rfl) workerIds
    have hepi := countP_dedup_unlinks isDedupEpilogueEv (fun _ => rfl) workerIds
    have hcnt := countP_dedup_unlinks (· == Ev.dedupPrologue resize)
      (fun _ => rfl) workerIds
    refine ⟨?_, ?_, ?_⟩
    · simp [stringDedupPass, stringDedupCtorTrace, stringDedupDtorTrace,
        List.countP_append, hpro, isDedupPrologueEv, isDedupEpilogueEv]
    · simp [stringDedupPass, stringDedupCtorTrace, stringDedupDtorTrace,
        List.count_append, List.count]
      simpa [List.count] using hcnt
    · simp [stringDedupPass, stringDedupCtorTrace, stringDedupDtorTrace,
        List.countP_append, hepi, isDedupPrologueEv, isDedupEpilogueEv]

/-- The worker-0 sequential run of `CodeCacheUnloadingTask::work` from
the constructor's state unloads every alive unit exactly once and in
registry order, the sentinel first. -/
theorem ccWorkSeqFull_worker0 (K M : Nat) (u : Bool) (hK : 1 ≤ K) :
    (ccWorkSeqFull K M u 0 (codeCacheCtor M).1 (codeCacheCtor M).2).1
      = (List.range M).map (fun i => Ev.unloadCompiled i u) := by
  by_cases hM : 0 < M
  · have hc1 : (codeCacheCtor M).1 = some 0 := by simp [codeCacheCtor, hM]
    have hc2 : (codeCacheCtor M).2 = some 0 := by simp [codeCacheCtor, hM]
    have hfl : (claimAllFrom K M M (some 0)).1.flatten = List.range' 1 (M - 1) := by
      have := claimAllFrom_flatten K M hK M 0 (by omega)
      simpa using this
    have hrange : List.range M = 0 :: List.range' 1 (M - 1) := by
      rw [List.range_eq_range']
      have : M = (M - 1) + 1 := by omega
      rw [this, List.range'_succ]
      simp
    simp [ccWorkSeqFull, hc1, hc2, hfl, hrange]
  · have hM0 : M = 0 := by omega
    subst hM0
    simp [ccWorkSeqFull, codeCacheCtor, claimAllFrom]

/-- Claim C7: the `CodeCacheUnloadingTask` constructor records the first
alive unit as both the sentinel `_first_nmethod` and the initial cursor
`_claimed_nmethod`; worker 0 then unloads the sentinel directly
(bypassing the cursor) and loops on `claim_nmethods`, unloading every
returned unit with `do_unloading(unloading_occurred)` until an empty
batch is returned, so its sequential run unloads units 0..M-1 in order,
each exactly once. -/
theorem C7_ctor_and_worker0 (K M : Nat) (u : Bool) (hK : 1 ≤ K) :
    ((codeCacheCtor M).1 = (codeCacheCtor M).2 ∧
      (codeCacheCtor M).1 = (if 0 < M then some 0 else none)) ∧
    (ccWorkSeqFull K M u 0 (codeCacheCtor M).1 (codeCacheCtor M).2).1
      = (List.range M).map (fun i => Ev.unloadCompiled i u) :=
  ⟨⟨rfl, rfl⟩, ccWorkSeqFull_worker0 K M u hK⟩

/-- Witness for C7 at K = 3, M = 5. -/
theorem C7_ctor_and_worker0_witness :
    (ccWorkSeqFull 3 5 true 0 (codeCacheCtor 5).1 (codeCacheCtor 5).2).1
      = (List.range 5).map (fun i => Ev.unloadCompiled i true) :=
  (C7_ctor_and_worker0 3 5 true (by decide)).2

/-- Every event of the JVMCI sub-task has phase 1. -/
theorem phase_jvmci (ej u cl : Bool) :
    ∀ e ∈ (jvmciWorkSeq ej u cl).1, phaseOf e = 1 := by
  intro e he
  unfold jvmciWorkSeq at he
  split at he
  · split at he
    · simp at he
    · simp at he
      subst he
      rfl
  · simp at he

/-- Every event of the code-cache sub-task has phase 2. -/
theorem phase_cc (K M : Nat) (u : Bool) (workerId : Nat) (first cursor : Option Nat) :
    ∀ e ∈ (ccWorkSeqFull K M u workerId first cursor).1, phaseOf e = 2 := by
  intro e he
  simp only [ccWorkSeqFull, List.mem_map] at he
  obtain ⟨i, _, hi⟩ := he
  subst hi
  rfl

/-- Every event of the dedup sub-task has phase 3. -/
theorem phase_dedup (de : Bool) (workerId : Nat) :
    ∀ e ∈ stringDedupWork de workerId, phaseOf e = 3 := by
  intro e he
  cases de with
  | false => simp [stringDedupWork] at he
  | true =>
    simp [stringDedupWork] at he
    subst he
    rfl

/-- Every event of the klass sub-task has phase 4. -/
theorem phase_klass (klasses : List Bool) (claimed : Bool) (pos : Nat) :
    ∀ e ∈ (klassWorkSeqFull klasses claimed pos).1, phaseOf e = 4 := by
  intro e he
  simp only [klassWorkSeqFull, List.mem_append, List.mem_map] at he
  rcases he with he | ⟨i, _, hi⟩
  · cases claimed with
    | false =>
      simp at he
      subst he
      rfl
    | true => simp at he
  · subst hi
    rfl

/-- A list whose elements all have the same phase is pairwise ordered by
phase. -/
theorem pairwise_phase_const {l : List Ev} {p : Nat}
    (h : ∀ e ∈ l, phaseOf e = p) :
    l.Pairwise (fun a b => phaseOf a ≤ phaseOf b) := by
  induction l with
  | nil => exact List.Pairwise.nil
  | cons a t ih =>
    refine List.Pairwise.cons ?_ (ih fun e he => h e (List.mem_cons_of_mem a he))
    intro b hb
    rw [h a (List.mem_cons_self a t), h b (List.mem_cons_of_mem a hb)]

/-- No event of a fixed non-klass phase is a `cleanTree` call. -/
theorem countP_cleanTree_zero {l : List Ev} {p : Nat} (hp : p ≠ 4)
    (h : ∀ e ∈ l, phaseOf e = p) :
    l.countP (fun e => e == Ev.cleanTree) = 0 := by
  apply List.countP_eq_zero.mpr
  intro a ha hc
  have hph := h a ha
  simp only [beq_iff_eq] at hc
  subst hc
  exact hp hph.symm

/-- Claim C4: each `ParallelCleaningTask::work(worker_id)` call performs
its sub-tasks in exactly the order (1) JVMCI cleanup attempt, (2)
code-cache unloading, (3) string-dedup cleanup, (4) klass cleaning, the
last only when `unloading_occurred`: the emitted trace decomposes into
the four sub-task traces in that order, its phases are monotone, no
klass-phase event occurs when `unloading_occurred` is false, and from a
fresh task the subclass-tree rebuild runs exactly when
`unloading_occurred` is true. -/
theorem C4_subtask_order (de ej : Bool) (K M : Nat) (klasses : List Bool)
    (u : Bool) (workerId : Nat) (st : SeqState) :
    ((parallelWorkSeq de ej K M klasses u workerId st).1
        = (jvmciWorkSeq ej u st.jvmciClaimed).1
          ++ (ccWorkSeqFull K M u workerId st.ccFirst st.ccCursor).1
          ++ stringDedupWork de workerId
          ++ (if u then (klassWorkSeqFull klasses st.treeClaimed st.klassPos).1
              else [])) ∧
    List.Sorted (· ≤ ·)
      ((parallelWorkSeq de ej K M klasses u workerId st).1.map phaseOf) ∧
    (∀ e ∈ (parallelWorkSeq de ej K M klasses false workerId st).1,
      phaseOf e ≠ 4) ∧
    ((parallelWorkSeq de ej K M klasses u workerId (seqInit M)).1.countP
        (fun e => e == Ev.cleanTree) = if u then 1 else 0) := by
  have hdec : ∀ (st' : SeqState),
      (parallelWorkSeq de ej K M klasses u workerId st').1
        = (jvmciWorkSeq ej u st'.jvmciClaimed).1
          ++ (ccWorkSeqFull K M u workerId st'.ccFirst st'.ccCursor).1
          ++ stringDedupWork de workerId
          ++ (if u then (klassWorkSeqFull klasses st'.treeClaimed st'.klassPos).1
              else []) := by
    intro st'
    cases u <;> rfl
  have hkl : ∀ e ∈ (if u then (klassWorkSeqFull klasses st.treeClaimed st.klassPos).1
      else []), phaseOf e = 4 := by
    cases u with
    | false => intro e he; simp at he
    | true =>
      intro e he
      simp only [if_pos] at he
      exact phase_klass klasses st.treeClaimed st.klassPos e he
  refine ⟨hdec st, ?_, ?_, ?_⟩
  · rw [hdec st]
    rw [List.Sorted, List.pairwise_map]
    have h1 := phase_jvmci ej u st.jvmciClaimed
    have h2 := phase_cc K M u workerId st.ccFirst st.ccCursor
    have h3 := phase_dedup de workerId
    refine List.pairwise_append.mpr ⟨?_, pairwise_phase_const hkl, ?_⟩
    · refine List.pairwise_append.mpr ⟨?_, pairwise_phase_const h3, ?_⟩
      · refine List.pairwise_append.mpr ⟨pairwise_phase_const h1,
          pairwise_phase_const h2, ?_⟩
        intro a ha b hb
        rw [h1 a ha, h2 b hb]
        omega
      · intro a ha b hb
        rw [List.mem_append] at ha
        rw [h3 b hb]
        rcases ha with ha | ha
        · rw [h1 a ha]; omega
        · rw [h2 a ha]; omega
    · intro a ha b hb
      rw [List.mem_append, List.mem_append] at ha
      rw [hkl b hb]
      rcases ha with (ha | ha) | ha
      · rw [h1 a ha]; omega
      · rw [h2 a ha]; omega
      · rw [h3 a ha]; omega
  · intro e he
    have hdecf : (parallelWorkSeq de ej K M klasses false workerId st).1
        = (jvmciWorkSeq ej false st.jvmciClaimed).1
          ++ (ccWorkSeqFull K M false workerId st.ccFirst st.ccCursor).1
          ++ stringDedupWork de workerId ++ [] := rfl
    rw [hdecf] at he
    rw [List.mem_append, List.mem_append, List.mem_append] at he
    rcases he with ((he | he) | he) | he
    · rw [phase_jvmci ej false st.jvmciClaimed e he]; omega
    · rw [phase_cc K M false workerId st.ccFirst st.ccCursor e he]; omega
    · rw [phase_dedup de workerId e he]; omega
    · simp at he
  · rw [hdec (seqInit M)]
    rw [List.countP_append, List.countP_append, List.countP_append]
    rw [countP_cleanTree_zero (by omega)
      (phase_jvmci ej u (seqInit M).jvmciClaimed)]
    rw [countP_cleanTree_zero (by omega)
      (phase_cc K M u workerId (seqInit M).ccFirst (seqInit M).ccCursor)]
    rw [countP_cleanTree_zero (by omega) (phase_dedup de workerId)]
    have htc : (seqInit M).treeClaimed = false := rfl
    have hkp : (seqInit M).klassPos = 0 := rfl
    rw [htc, hkp]
    cases u with
    | false => rfl
    | true =>
      rw [if_pos rfl]
      have hklw : (klassWorkSeqFull klasses false 0).1.countP
          (fun e => e == Ev.cleanTree) = 1 := by
        have hrep : (klassWorkSeqFull klasses false 0).1
            = Ev.cleanTree :: (klassLoopSeq (klasses.drop 0) 0).map Ev.cleanKlass := rfl
        rw [hrep, List.countP_cons, List.countP_map]
        have h0 : (klassLoopSeq (klasses.drop 0) 0).countP
            ((fun e => e == Ev.cleanTree) ∘ Ev.cleanKlass) = 0 := by
          apply List.countP_eq_zero.mpr
          intro a _
          simp [Function.comp]
        rw [h0]
        rfl
      rw [hklw, if_pos rfl]

/-- The gate invariant holds initially. -/
theorem gateInv_init (N : Nat) : GateInv (gateInit N) := by
  constructor
  · intro _ w
    left
    rfl
  · simp [gateWinners, gateInit]

/-- The gate invariant is preserved by every step. -/
theorem gateInv_step {N : Nat} {s t : GateState N} (hs : GateInv s)
    (hst : GateStep s t) : GateInv t := by
  obtain ⟨hsa, hsb⟩ := hs
  simp only [gateWinners] at hsb
  have e_idle : (if GateSt.idle = GateSt.doneTrue then (1 : Nat) else 0) = 0 := rfl
  have e_sz : (if GateSt.sawZero = GateSt.doneTrue then (1 : Nat) else 0) = 0 := rfl
  have e_df : (if GateSt.doneFalse = GateSt.doneTrue then (1 : Nat) else 0) = 0 := rfl
  have e_dt : (if GateSt.doneTrue = GateSt.doneTrue then (1 : Nat) else 0) = 1 := rfl
  cases hst with
  | loadOne w h1 h2 =>
    refine ⟨?_, ?_⟩
    · intro hc
      have hc' : s.claimed = false := hc
      rw [hc'] at h2
      exact absurd h2 (by decide)
    · have hupd := sum_ite_comp_update s.gst w GateSt.doneFalse GateSt.doneTrue
      rw [h1, e_idle, e_df] at hupd
      show (∑ x, if Function.update s.gst w GateSt.doneFalse x = GateSt.doneTrue
          then 1 else 0) = if s.claimed = true then 1 else 0
      rw [h2, if_pos rfl] at hsb
      rw [h2, if_pos rfl]
      omega
  | loadZero w h1 h2 =>
    refine ⟨?_, ?_⟩
    · intro _ w'
      show Function.update s.gst w GateSt.sawZero w' = GateSt.idle ∨
        Function.update s.gst w GateSt.sawZero w' = GateSt.sawZero
      by_cases hww : w' = w
      · subst hww
        right
        exact Function.update_same w' GateSt.sawZero s.gst
      · rw [Function.update_noteq hww]
        exact hsa h2 w'
    · have hupd := sum_ite_comp_update s.gst w GateSt.sawZero GateSt.doneTrue
      rw [h1, e_idle, e_sz] at hupd
      show (∑ x, if Function.update s.gst w GateSt.sawZero x = GateSt.doneTrue
          then 1 else 0) = if s.claimed = true then 1 else 0
      rw [h2, if_neg (by decide)] at hsb
      rw [h2, if_neg (by decide)]
      omega
  | casWin w h1 h2 =>
    refine ⟨?_, ?_⟩
    · intro hc
      have hc' : (true : Bool) = false := hc
      exact absurd hc' (by decide)
    · have hupd := sum_ite_comp_update s.gst w GateSt.doneTrue GateSt.doneTrue
      rw [h1, e_sz, e_dt] at hupd
      rw [h2, if_neg (by decide)] at hsb
      show (∑ x, if Function.update s.gst w GateSt.doneTrue x = GateSt.doneTrue
          then 1 else 0) = if (true : Bool) = true then 1 else 0
      rw [if_pos rfl]
      omega
  | casLose w h1 h2 =>
    refine ⟨?_, ?_⟩
    · intro hc
      have hc' : s.claimed = false := hc
      rw [hc'] at h2
      exact absurd h2 (by decide)
    · have hupd := sum_ite_comp_update s.gst w GateSt.doneFalse GateSt.doneTrue
      rw [h1, e_sz, e_df] at hupd
      rw [h2, if_pos rfl] at hsb
      show (∑ x, if Function.update s.gst w GateSt.doneFalse x = GateSt.doneTrue
          then 1 else 0) = if s.claimed = true then 1 else 0
      rw [h2, if_pos rfl]
      omega

/-- Every reachable gate state satisfies the invariant. -/
theorem gateInv_reachable (N : Nat) (s : GateState N) (h : GateReachable N s) :
    GateInv s := by
  induction h with
  | refl => exact gateInv_init N
  | tail _ hstep ih => exact gateInv_step ih hstep

/-- Claim C3: when the single-claim gate
(`KlassCleaningTask::claim_clean_klass_tree_task`, and identically
`JVMCICleaningTask::claim_cleaning_task`) is invoked by N ≥ 1 callers in
any interleaving within one pass, exactly one call returns true and every
other call returns false. -/
theorem C3_single_claim_exclusive (N : Nat) (hN : 1 ≤ N) (s : GateState N)
    (hre : GateReachable N s)
    (ht : ∀ w, s.gst w = GateSt.doneTrue ∨ s.gst w = GateSt.doneFalse) :
    gateWinners s = 1 ∧
    (∀ w : Fin N, s.gst w ≠ GateSt.doneTrue → s.gst w = GateSt.doneFalse) := by
  obtain ⟨ha, hb⟩ := gateInv_reachable N s hre
  constructor
  · by_cases hc : s.claimed = true
    · rw [hc] at hb
      simpa using hb
    · have hc' : s.claimed = false := by
        revert hc
        cases s.claimed <;> simp
      have h0 := ha hc' ⟨0, hN⟩
      rcases ht ⟨0, hN⟩ with h | h <;> rcases h0 with h' | h' <;>
        rw [h] at h' <;> cases h'
  · intro w hw
    rcases ht w with h | h
    · exact absurd h hw
    · exact h

/-- Witness for C3: two callers race; caller 0 wins, caller 1 returns
false, and exactly one call returned true. -/
theorem C3_single_claim_exclusive_witness : gateWinners gateW3 = 1 :=
  (C3_single_claim_exclusive 2 (by decide) gateW3
    (Relation.ReflTransGen.head (GateStep.loadZero (gateInit 2) 0 rfl rfl)
      (Relation.ReflTransGen.head (GateStep.casWin gateW1 0 (by decide) rfl)
        (Relation.ReflTransGen.head (GateStep.loadOne gateW2 1 (by decide) rfl)
          Relation.ReflTransGen.refl)))
    (by decide)).1

/-- If every worker has a non-`winner` status, nobody holds the JVMCI
claim. -/
theorem jWinnerHolders_zero {N : Nat} (s : JState N)
    (h : ∀ w, s.jst w ≠ JSt.winner) : jWinnerHolders s = 0 := by
  unfold jWinnerHolders
  exact Finset.sum_eq_zero fun w _ => by
    rw [if_neg (h w)]

/-- A worker in `winner` status contributes to `jWinnerHolders`. -/
theorem jWinnerHolders_pos {N : Nat} (s : JState N) (w : Fin N)
    (h : s.jst w = JSt.winner) : 1 ≤ jWinnerHolders s := by
  unfold jWinnerHolders
  refine le_trans ?_ (Finset.single_le_sum
    (f := fun x => if s.jst x = JSt.winner then (1 : Nat) else 0)
    (fun i _ => Nat.zero_le _) (Finset.mem_univ w))
  show (1 : Nat) ≤ if s.jst w = JSt.winner then (1 : Nat) else 0
  rw [h]
  decide

/-- The JVMCI invariant holds initially. -/
theorem jInv_init (unloading enable : Bool) (N : Nat) :
    JInv unloading enable (jvmciInit N) := by
  refine ⟨fun _ => ⟨rfl, rfl, fun w => Or.inl rfl⟩, fun _ => rfl,
    fun _ _ w => Or.inl rfl, fun hcl => ?_⟩
  have hcl' : (false : Bool) = true := hcl
  exact absurd hcl' (by decide)

/-- The JVMCI invariant is preserved by every step. -/
theorem jInv_step {unloading enable : Bool} {N : Nat} {s t : JState N}
    (hs : JInv unloading enable s) (hst : JStep unloading enable s t) :
    JInv unloading enable t := by
  obtain ⟨ha, hb, hc, hd⟩ := hs
  have e_i : (if JSt.idle = JSt.winner then (1 : Nat) else 0) = 0 := rfl
  have e_s : (if JSt.sawZero = JSt.winner then (1 : Nat) else 0) = 0 := rfl
  have e_w : (if JSt.winner = JSt.winner then (1 : Nat) else 0) = 1 := rfl
  have e_d : (if JSt.done = JSt.winner then (1 : Nat) else 0) = 0 := rfl
  cases hst with
  | guardFalse w h1 h2 =>
    obtain ⟨hcl, hcalls, hstat⟩ := ha h2
    refine ⟨fun _ => ⟨hcl, hcalls, ?_⟩, fun _ => hcalls, ?_, ?_⟩
    · intro w'
      show Function.update s.jst w JSt.done w' = JSt.idle ∨
        Function.update s.jst w JSt.done w' = JSt.done
      by_cases hww : w' = w
      · subst hww
        right
        exact Function.update_same w' JSt.done s.jst
      · rw [Function.update_noteq hww]
        exact hstat w'
    · intro _ hg
      rw [h2] at hg
      exact absurd hg (by decide)
    · intro hcl'
      have hcl'' : s.cleaningClaimed = true := hcl'
      rw [hcl] at hcl''
      exact absurd hcl'' (by decide)
  | loadOne w h1 h2 h3 =>
    refine ⟨?_, ?_, ?_, ?_⟩
    · intro hg
      rw [h2] at hg
      exact absurd hg (by decide)
    · intro hcl
      have hcl' : s.cleaningClaimed = false := hcl
      rw [h3] at hcl'
      exact absurd hcl' (by decide)
    · intro hcl
      have hcl' : s.cleaningClaimed = false := hcl
      rw [h3] at hcl'
      exact absurd hcl' (by decide)
    · intro _
      have hupd := sum_ite_comp_update s.jst w JSt.done JSt.winner
      rw [h1, e_i, e_d] at hupd
      have hd' := hd h3
      show s.unloadCalls + (∑ x, if Function.update s.jst w JSt.done x = JSt.winner
          then 1 else 0) = 1
      unfold jWinnerHolders at hd'
      omega
  | loadZero w h1 h2 h3 =>
    refine ⟨?_, fun _ => hb h3, ?_, ?_⟩
    · intro hg
      rw [h2] at hg
      exact absurd hg (by decide)
    · intro _ _ w'
      show Function.update s.jst w JSt.sawZero w' = JSt.idle ∨
        Function.update s.jst w JSt.sawZero w' = JSt.sawZero
      by_cases hww : w' = w
      · subst hww
        right
        exact Function.update_same w' JSt.sawZero s.jst
      · rw [Function.update_noteq hww]
        exact hc h3 h2 w'
    · intro hcl
      have hcl' : s.cleaningClaimed = true := hcl
      rw [h3] at hcl'
      exact absurd hcl' (by decide)
  | casWin w h1 h2 =>
    have hstat : ∀ w', s.jst w' = JSt.idle ∨ s.jst w' = JSt.sawZero := by
      by_cases hg : (unloading && enable) = true
      · exact hc h2 hg
      · have hg' : (unloading && enable) = false := by
          revert hg
          cases (unloading && enable) <;> simp
        obtain ⟨_, _, hstat0⟩ := ha hg'
        rcases hstat0 w with h | h
        · rw [h1] at h
          exact absurd h (by decide)
        · rw [h1] at h
          exact absurd h (by decide)
    refine ⟨?_, ?_, ?_, ?_⟩
    · intro hg
      obtain ⟨_, _, hstat0⟩ := ha hg
      rcases hstat0 w with h | h <;> rw [h1] at h <;> exact absurd h (by decide)
    · intro hcl
      have hcl' : (true : Bool) = false := hcl
      exact absurd hcl' (by decide)
    · intro hcl
      have hcl' : (true : Bool) = false := hcl
      exact absurd hcl' (by decide)
    · intro _
      have hupd := sum_ite_comp_update s.jst w JSt.winner JSt.winner
      rw [h1, e_s, e_w] at hupd
      have hcalls := hb h2
      have hhold : jWinnerHolders s = 0 := by
        apply jWinnerHolders_zero
        intro w'
        rcases hstat w' with h | h <;> rw [h] <;> decide
      unfold jWinnerHolders at hhold
      show s.unloadCalls + (∑ x, if Function.update s.jst w JSt.winner x = JSt.winner
          then 1 else 0) = 1
      omega
  | casLose w h1 h2 =>
    refine ⟨?_, ?_, ?_, ?_⟩
    · intro hg
      obtain ⟨hcl, _, _⟩ := ha hg
      rw [hcl] at h2
      exact absurd h2 (by decide)
    · intro hcl
      have hcl' : s.cleaningClaimed = false := hcl
      rw [h2] at hcl'
      exact absurd hcl' (by decide)
    · intro hcl
      have hcl' : s.cleaningClaimed = false := hcl
      rw [h2] at hcl'
      exact absurd hcl' (by decide)
    · intro _
      have hupd := sum_ite_comp_update s.jst w JSt.done JSt.winner
      rw [h1, e_s, e_d] at hupd
      have hd' := hd h2
      unfold jWinnerHolders at hd'
      show s.unloadCalls + (∑ x, if Function.update s.jst w JSt.done x = JSt.winner
          then 1 else 0) = 1
      omega
  | callUnload w h1 =>
    have hclaimed : s.cleaningClaimed = true := by
      by_cases hcl : s.cleaningClaimed = true
      · exact hcl
      · have hcl' : s.cleaningClaimed = false := by
          revert hcl
          cases s.cleaningClaimed <;> simp
        by_cases hg : (unloading && enable) = true
        · rcases hc hcl' hg w with h | h <;> rw [h1] at h <;>
            exact absurd h (by decide)
        · have hg' : (unloading && enable) = false := by
            revert hg
            cases (unloading && enable) <;> simp
          obtain ⟨_, _, hstat0⟩ := ha hg'
          rcases hstat0 w with h | h <;> rw [h1] at h <;> exact absurd h (by decide)
    refine ⟨?_, ?_, ?_, ?_⟩
    · intro hg
      obtain ⟨hcl, _, _⟩ := ha hg
      rw [hclaimed] at hcl
      exact absurd hcl (by decide)
    · intro hcl
      have hcl' : s.cleaningClaimed = false := hcl
      rw [hclaimed] at hcl'
      exact absurd hcl' (by decide)
    · intro hcl
      have hcl' : s.cleaningClaimed = false := hcl
      rw [hclaimed] at hcl'
      exact absurd hcl' (by decide)
    · intro _
      have hupd := sum_ite_comp_update s.jst w JSt.done JSt.winner
      rw [h1, e_w, e_d] at hupd
      have hd' := hd hclaimed
      unfold jWinnerHolders at hd'
      show s.unloadCalls + 1 + (∑ x, if Function.update s.jst w JSt.done x = JSt.winner
          then 1 else 0) = 1
      have hpos := jWinnerHolders_pos s w h1
      unfold jWinnerHolders at hpos
      omega

/-- Every reachable JVMCI state satisfies the invariant. -/
theorem jInv_reachable (unloading enable : Bool) (N : Nat) (s : JState N)
    (h : JReachable unloading enable N s) : JInv unloading enable s := by
  induction h with
  | refl => exact jInv_init unloading enable N
  | tail _ hstep ih => exact jInv_step ih hstep

/-- Claim C9: `JVMCICleaningTask::work(unloading_occurred)` is a no-op
unless `unloading_occurred` and `EnableJVMCI` both hold (in particular
the claim flag is never touched); when both hold, every interleaving of
N ≥ 1 workers ends with `JVMCI::do_unloading` invoked exactly once. -/
theorem C9_jvmci_once (N : Nat) (unloading enable : Bool) (hN : 1 ≤ N)
    (s : JState N) (hre : JReachable unloading enable N s)
    (ht : ∀ w, s.jst w = JSt.done) :
    s.unloadCalls = (if (unloading && enable) = true then 1 else 0) ∧
    ((unloading && enable) = false → s.cleaningClaimed = false) := by
  obtain ⟨ha, hb, hc, hd⟩ := jInv_reachable unloading enable N s hre
  by_cases hg : (unloading && enable) = true
  · have hclaimed : s.cleaningClaimed = true := by
      by_cases hcl : s.cleaningClaimed = true
      · exact hcl
      · have hcl' : s.cleaningClaimed = false := by
          revert hcl
          cases s.cleaningClaimed <;> simp
        rcases hc hcl' hg ⟨0, hN⟩ with h | h <;> rw [ht ⟨0, hN⟩] at h <;>
          exact absurd h (by decide)
    have hd' := hd hclaimed
    have hhold : jWinnerHolders s = 0 := by
      apply jWinnerHolders_zero
      intro w
      rw [ht w]
      decide
    rw [if_pos hg]
    refine ⟨by omega, ?_⟩
    intro hgf
    rw [hgf] at hg
    exact absurd hg (by decide)
  · have hg' : (unloading && enable) = false := by
      revert hg
      cases (unloading && enable) <;> simp
    obtain ⟨hcl, hcalls, _⟩ := ha hg'
    rw [if_neg hg]
    exact ⟨hcalls, fun _ => hcl⟩

/-- Witness for C9: one worker with the guard satisfied loads 0, wins the
claim and calls `JVMCI::do_unloading` once. -/
theorem C9_jvmci_once_witness :
    jW3.unloadCalls = (if (true && true) = true then 1 else 0) :=
  (C9_jvmci_once 1 true true (by decide) jW3
    (Relation.ReflTransGen.head (JStep.loadZero (jvmciInit 1) 0 rfl rfl rfl)
      (Relation.ReflTransGen.head (JStep.casWin jW1 0 (by decide) rfl)
        (Relation.ReflTransGen.head (JStep.callUnload jW2 0 (by decide))
          Relation.ReflTransGen.refl)))
    (by decide)).1

/-- Pointwise description of `bump`. -/
theorem bump_apply (f : Nat → Nat) (i j : Nat) :
    bump f i j = f j + (if j = i then 1 else 0) := by
  unfold bump
  by_cases h : j = i
  · rw [if_pos h, if_pos h]
  · rw [if_neg h, if_neg h]
    omega

/-- Indicator comparison of two `cleaning` statuses. -/
theorem ite_cleaning_eq (a b : Nat) :
    (if KSt.cleaning a = KSt.cleaning b then (1 : Nat) else 0)
      = if a = b then 1 else 0 := by
  by_cases h : a = b
  · subst h
    rw [if_pos rfl, if_pos rfl]
  · rw [if_neg (by simp [h]), if_neg h]

/-- Updating a worker between two non-`cleaning` statuses leaves every
cleaning count unchanged. -/
theorem kcc_fun_eq {N : Nat} (g : Fin N → KSt) (w : Fin N) (v : KSt)
    (hold : ∀ j, g w ≠ KSt.cleaning j) (hnew : ∀ j, v ≠ KSt.cleaning j)
    (i : Nat) :
    (∑ x, if Function.update g w v x = KSt.cleaning i then 1 else 0)
      = ∑ x, if g x = KSt.cleaning i then 1 else 0 := by
  have hupd := sum_ite_comp_update g w v (KSt.cleaning i)
  rw [if_neg (hold i), if_neg (hnew i)] at hupd
  omega

/-- If every worker has a non-`tree` status, nobody holds the tree
claim. -/
theorem kTreeHolders_zero {N : Nat} (s : KState N)
    (h : ∀ w, s.kst w ≠ KSt.tree) : kTreeHolders s = 0 := by
  unfold kTreeHolders
  exact Finset.sum_eq_zero fun w _ => by rw [if_neg (h w)]

/-- A worker in `tree` status contributes to `kTreeHolders`. -/
theorem kTreeHolders_pos {N : Nat} (s : KState N) (w : Fin N)
    (h : s.kst w = KSt.tree) : 1 ≤ kTreeHolders s := by
  unfold kTreeHolders
  refine le_trans ?_ (Finset.single_le_sum
    (f := fun x => if s.kst x = KSt.tree then (1 : Nat) else 0)
    (fun i _ => Nat.zero_le _) (Finset.mem_univ w))
  show (1 : Nat) ≤ if s.kst w = KSt.tree then (1 : Nat) else 0
  rw [h]
  decide

/-- A worker holding class `i` contributes to its cleaning count. -/
theorem kCleaningCount_pos {N : Nat} (s : KState N) (w : Fin N) (i : Nat)
    (h : s.kst w = KSt.cleaning i) : 1 ≤ kCleaningCount s i := by
  unfold kCleaningCount
  refine le_trans ?_ (Finset.single_le_sum
    (f := fun x => if s.kst x = KSt.cleaning i then (1 : Nat) else 0)
    (fun j _ => Nat.zero_le _) (Finset.mem_univ w))
  show (1 : Nat) ≤ if s.kst w = KSt.cleaning i then (1 : Nat) else 0
  rw [h, if_pos rfl]

/-- No class is being cleaned in the initial state. -/
theorem kCleaningCount_zero_init (N : Nat) (i : Nat) :
    kCleaningCount (klassInit N) i = 0 := by
  unfold kCleaningCount
  exact Finset.sum_eq_zero fun w _ => by
    rw [if_neg (fun h => KSt.noConfusion h)]

/-- The klass invariant holds initially. -/
theorem kInv_init (klasses : List Bool) (N : Nat) :
    KInv klasses (klassInit N) := by
  refine ⟨Nat.zero_le _, ?_, fun _ w => Or.inl rfl, ?_, ?_, ?_⟩
  · have h0 : kTreeHolders (klassInit N) = 0 :=
      kTreeHolders_zero _ fun w h => KSt.noConfusion h
    rw [h0]
    rfl
  · intro i hi
    have hi' : i < 0 := hi
    exact absurd hi' (by omega)
  · intro i _
    refine ⟨rfl, ?_⟩
    exact kCleaningCount_zero_init N i
  · intro w h
    exact KSt.noConfusion h

/-- Transfer of the handed-out-classes component to a state with equal
position, counts and cleaning counts. -/
theorem comp4_transfer {klasses : List Bool} {N : Nat} (s u : KState N)
    (hpos : u.pos = s.pos) (hcounts : u.cleanCounts = s.cleanCounts)
    (hcc : ∀ i, kCleaningCount u i = kCleaningCount s i)
    (h4 : ∀ i, i < s.pos →
      (klasses.getD i false = true →
        s.cleanCounts i + kCleaningCount s i = 1) ∧
      (klasses.getD i false = false →
        s.cleanCounts i = 0 ∧ kCleaningCount s i = 0)) :
    ∀ i, i < u.pos →
      (klasses.getD i false = true →
        u.cleanCounts i + kCleaningCount u i = 1) ∧
      (klasses.getD i false = false →
        u.cleanCounts i = 0 ∧ kCleaningCount u i = 0) := by
  intro i hi
  rw [hpos] at hi
  rw [hcounts, hcc i]
  exact h4 i hi

/-- Transfer of the untouched-classes component to a state with equal
position, counts and cleaning counts. -/
theorem comp5_transfer {N : Nat} (s u : KState N)
    (hpos : u.pos = s.pos) (hcounts : u.cleanCounts = s.cleanCounts)
    (hcc : ∀ i, kCleaningCount u i = kCleaningCount s i)
    (h5 : ∀ i, s.pos ≤ i → s.cleanCounts i = 0 ∧ kCleaningCount s i = 0) :
    ∀ i, u.pos ≤ i → u.cleanCounts i = 0 ∧ kCleaningCount u i = 0 := by
  intro i hi
  rw [hpos] at hi
  rw [hcounts, hcc i]
  exact h5 i hi

/-- The klass invariant is preserved by every step. -/
theorem kInv_step {klasses : List Bool} {N : Nat} {s t : KState N}
    (hs : KInv klasses s) (hst : KStep klasses s t) : KInv klasses t := by
  obtain ⟨hpos, htree, hga, h4, h5, hdone⟩ := hs
  have e_ti : (if KSt.idle = KSt.tree then (1 : Nat) else 0) = 0 := rfl
  have e_ts : (if KSt.sawZero = KSt.tree then (1 : Nat) else 0) = 0 := rfl
  have e_tt : (if KSt.tree = KSt.tree then (1 : Nat) else 0) = 1 := rfl
  have e_tl : (if KSt.looping = KSt.tree then (1 : Nat) else 0) = 0 := rfl
  have e_td : (if KSt.done = KSt.tree then (1 : Nat) else 0) = 0 := rfl
  cases hst with
  | loadOne w h1 h2 =>
    have hcc : ∀ i, (∑ x, if Function.update s.kst w KSt.looping x
        = KSt.cleaning i then 1 else 0) = kCleaningCount s i :=
      kcc_fun_eq s.kst w KSt.looping
        (fun j h => by rw [h1] at h; exact KSt.noConfusion h)
        (fun j h => KSt.noConfusion h)
    refine ⟨hpos, ?_, ?_, comp4_transfer s _ rfl rfl (fun i => hcc i) h4,
      comp5_transfer s _ rfl rfl (fun i => hcc i) h5, ?_⟩
    · have hupd := sum_ite_comp_update s.kst w KSt.looping KSt.tree
      rw [h1, e_ti, e_tl] at hupd
      show s.treeCount + (∑ x, if Function.update s.kst w KSt.looping x
          = KSt.tree then 1 else 0) = if s.treeClaimed = true then 1 else 0
      unfold kTreeHolders at htree
      omega
    · intro hcl
      have hcl' : s.treeClaimed = false := hcl
      rw [h2] at hcl'
      exact absurd hcl' (by decide)
    · intro w' hw'
      have hw2 : Function.update s.kst w KSt.looping w' = KSt.done := hw'
      show s.pos = klasses.length
      by_cases hww : w' = w
      · subst hww
        rw [Function.update_same] at hw2
        exact KSt.noConfusion hw2
      · rw [Function.update_noteq hww] at hw2
        exact hdone w' hw2
  | loadZero w h1 h2 =>
    have hcc : ∀ i, (∑ x, if Function.update s.kst w KSt.sawZero x
        = KSt.cleaning i then 1 else 0) = kCleaningCount s i :=
      kcc_fun_eq s.kst w KSt.sawZero
        (fun j h => by rw [h1] at h; exact KSt.noConfusion h)
        (fun j h => KSt.noConfusion h)
    refine ⟨hpos, ?_, ?_, comp4_transfer s _ rfl rfl (fun i => hcc i) h4,
      comp5_transfer s _ rfl rfl (fun i => hcc i) h5, ?_⟩
    · have hupd := sum_ite_comp_update s.kst w KSt.sawZero KSt.tree
      rw [h1, e_ti, e_ts] at hupd
      show s.treeCount + (∑ x, if Function.update s.kst w KSt.sawZero x
          = KSt.tree then 1 else 0) = if s.treeClaimed = true then 1 else 0
      unfold kTreeHolders at htree
      omega
    · intro _ w'
      show Function.update s.kst w KSt.sawZero w' = KSt.idle ∨
        Function.update s.kst w KSt.sawZero w' = KSt.sawZero
      by_cases hww : w' = w
      · subst hww
        right
        exact Function.update_same w' KSt.sawZero s.kst
      · rw [Function.update_noteq hww]
        exact hga h2 w'
    · intro w' hw'
      have hw2 : Function.update s.kst w KSt.sawZero w' = KSt.done := hw'
      show s.pos = klasses.length
      by_cases hww : w' = w
      · subst hww
        rw [Function.update_same] at hw2
        exact KSt.noConfusion hw2
      · rw [Function.update_noteq hww] at hw2
        exact hdone w' hw2
  | casWin w h1 h2 =>
    have hcc : ∀ i, (∑ x, if Function.update s.kst w KSt.tree x
        = KSt.cleaning i then 1 else 0) = kCleaningCount s i :=
      kcc_fun_eq s.kst w KSt.tree
        (fun j h => by rw [h1] at h; exact KSt.noConfusion h)
        (fun j h => KSt.noConfusion h)
    refine ⟨hpos, ?_, ?_, comp4_transfer s _ rfl rfl (fun i => hcc i) h4,
      comp5_transfer s _ rfl rfl (fun i => hcc i) h5, ?_⟩
    · have hupd := sum_ite_comp_update s.kst w KSt.tree KSt.tree
      rw [h1, e_ts, e_tt] at hupd
      rw [h2, if_neg (by decide)] at htree
      show s.treeCount + (∑ x, if Function.update s.kst w KSt.tree x
          = KSt.tree then 1 else 0) = if (true : Bool) = true then 1 else 0
      rw [if_pos rfl]
      unfold kTreeHolders at htree
      omega
    · intro hcl
      have hcl' : (true : Bool) = false := hcl
      exact absurd hcl' (by decide)
    · intro w' hw'
      have hw2 : Function.update s.kst w KSt.tree w' = KSt.done := hw'
      show s.pos = klasses.length
      by_cases hww : w' = w
      · subst hww
        rw [Function.update_same] at hw2
        exact KSt.noConfusion hw2
      · rw [Function.update_noteq hww] at hw2
        exact hdone w' hw2
  | casLose w h1 h2 =>
    have hcc : ∀ i, (∑ x, if Function.update s.kst w KSt.looping x
        = KSt.cleaning i then 1 else 0) = kCleaningCount s i :=
      kcc_fun_eq s.kst w KSt.looping
        (fun j h => by rw [h1] at h; exact KSt.noConfusion h)
        (fun j h => KSt.noConfusion h)
    refine ⟨hpos, ?_, ?_, comp4_transfer s _ rfl rfl (fun i => hcc i) h4,
      comp5_transfer s _ rfl rfl (fun i => hcc i) h5, ?_⟩
    · have hupd := sum_ite_comp_update s.kst w KSt.looping KSt.tree
      rw [h1, e_ts, e_tl] at hupd
      show s.treeCount + (∑ x, if Function.update s.kst w KSt.looping x
          = KSt.tree then 1 else 0) = if s.treeClaimed = true then 1 else 0
      unfold kTreeHolders at htree
      omega
    · intro hcl
      have hcl' : s.treeClaimed = false := hcl
      rw [h2] at hcl'
      exact absurd hcl' (by decide)
    · intro w' hw'
      have hw2 : Function.update s.kst w KSt.looping w' = KSt.done := hw'
      show s.pos = klasses.length
      by_cases hww : w' = w
      · subst hww
        rw [Function.update_same] at hw2
        exact KSt.noConfusion hw2
      · rw [Function.update_noteq hww] at hw2
        exact hdone w' hw2
  | treeStep w h1 =>
    have hcl : s.treeClaimed = true := by
      by_cases hcl : s.treeClaimed = true
      · exact hcl
      · have hcl' : s.treeClaimed = false := by
          revert hcl
          cases s.treeClaimed <;> simp
        rcases hga hcl' w with h | h <;> rw [h1] at h <;> exact KSt.noConfusion h
    have hcc : ∀ i, (∑ x, if Function.update s.kst w KSt.looping x
        = KSt.cleaning i then 1 else 0) = kCleaningCount s i :=
      kcc_fun_eq s.kst w KSt.looping
        (fun j h => by rw [h1] at h; exact KSt.noConfusion h)
        (fun j h => KSt.noConfusion h)
    refine ⟨hpos, ?_, ?_, comp4_transfer s _ rfl rfl (fun i => hcc i) h4,
      comp5_transfer s _ rfl rfl (fun i => hcc i) h5, ?_⟩
    · have hupd := sum_ite_comp_update s.kst w KSt.looping KSt.tree
      rw [h1, e_tt, e_tl] at hupd
      rw [hcl, if_pos rfl] at htree
      show s.treeCount + 1 + (∑ x, if Function.update s.kst w KSt.looping x
          = KSt.tree then 1 else 0) = if s.treeClaimed = true then 1 else 0
      rw [hcl, if_pos rfl]
      have hph := kTreeHolders_pos s w h1
      unfold kTreeHolders at htree hph
      omega
    · intro hcl2
      have hcl2' : s.treeClaimed = false := hcl2
      rw [hcl] at hcl2'
      exact absurd hcl2' (by decide)
    · intro w' hw'
      have hw2 : Function.update s.kst w KSt.looping w' = KSt.done := hw'
      show s.pos = klasses.length
      by_cases hww : w' = w
      · subst hww
        rw [Function.update_same] at hw2
        exact KSt.noConfusion hw2
      · rw [Function.update_noteq hww] at hw2
        exact hdone w' hw2
  | nextInstance w h1 h2 h3 =>
    refine ⟨?_, ?_, ?_, ?_, ?_, ?_⟩
    · show s.pos + 1 ≤ klasses.length
      omega
    · have hupd := sum_ite_comp_update s.kst w (KSt.cleaning s.pos) KSt.tree
      rw [h1, e_tl] at hupd
      rw [show (if KSt.cleaning s.pos = KSt.tree then (1 : Nat) else 0) = 0
        from rfl] at hupd
      show s.treeCount + (∑ x, if Function.update s.kst w (KSt.cleaning s.pos) x
          = KSt.tree then 1 else 0) = if s.treeClaimed = true then 1 else 0
      unfold kTreeHolders at htree
      omega
    · intro hcl
      rcases hga hcl w with h | h <;> rw [h1] at h <;> exact KSt.noConfusion h
    · intro i hi
      have hi' : i < s.pos + 1 := hi
      have hupd := sum_ite_comp_update s.kst w (KSt.cleaning s.pos)
        (KSt.cleaning i)
      rw [h1, ite_cleaning_eq s.pos i] at hupd
      rw [show (if KSt.looping = KSt.cleaning i then (1 : Nat) else 0) = 0
        from rfl] at hupd
      by_cases hip : i < s.pos
      · obtain ⟨hi1, hi2⟩ := h4 i hip
        have hne : ¬(s.pos = i) := by omega
        rw [if_neg hne] at hupd
        refine ⟨?_, ?_⟩
        · intro hinst
          have h1' := hi1 hinst
          show s.cleanCounts i + (∑ x, if Function.update s.kst w
              (KSt.cleaning s.pos) x = KSt.cleaning i then 1 else 0) = 1
          unfold kCleaningCount at h1'
          omega
        · intro hninst
          obtain ⟨ha1, ha2⟩ := hi2 hninst
          refine ⟨ha1, ?_⟩
          show (∑ x, if Function.update s.kst w (KSt.cleaning s.pos) x
              = KSt.cleaning i then 1 else 0) = 0
          unfold kCleaningCount at ha2
          omega
      · have hieq : i = s.pos := by omega
        subst hieq
        rw [if_pos rfl] at hupd
        obtain ⟨ha1, ha2⟩ := h5 s.pos (by omega)
        refine ⟨?_, ?_⟩
        · intro _
          show s.cleanCounts s.pos + (∑ x, if Function.update s.kst w
              (KSt.cleaning s.pos) x = KSt.cleaning s.pos then 1 else 0) = 1
          unfold kCleaningCount at ha2
          omega
        · intro hninst
          rw [h3] at hninst
          exact absurd hninst (by decide)
    · intro i hi
      have hi' : s.pos + 1 ≤ i := hi
      obtain ⟨ha1, ha2⟩ := h5 i (by omega)
      have hupd := sum_ite_comp_update s.kst w (KSt.cleaning s.pos)
        (KSt.cleaning i)
      rw [h1, ite_cleaning_eq s.pos i] at hupd
      rw [show (if KSt.looping = KSt.cleaning i then (1 : Nat) else 0) = 0
        from rfl] at hupd
      rw [if_neg (show ¬(s.pos = i) by omega)] at hupd
      refine ⟨ha1, ?_⟩
      show (∑ x, if Function.update s.kst w (KSt.cleaning s.pos) x
          = KSt.cleaning i then 1 else 0) = 0
      unfold kCleaningCount at ha2
      omega
    · intro w' hw'
      have hw2 : Function.update s.kst w (KSt.cleaning s.pos) w' = KSt.done := hw'
      show s.pos + 1 = klasses.length
      by_cases hww : w' = w
      · subst hww
        rw [Function.update_same] at hw2
        exact KSt.noConfusion hw2
      · rw [Function.update_noteq hww] at hw2
        have := hdone w' hw2
        omega
  | nextSkip w h1 h2 h3 =>
    refine ⟨?_, htree, hga, ?_, ?_, ?_⟩
    · show s.pos + 1 ≤ klasses.length
      omega
    · intro i hi
      have hi' : i < s.pos + 1 := hi
      by_cases hip : i < s.pos
      · exact h4 i hip
      · have hieq : i = s.pos := by omega
        subst hieq
        refine ⟨?_, ?_⟩
        · intro hinst
          rw [h3] at hinst
          exact absurd hinst (by decide)
        · intro _
          exact h5 s.pos (by omega)
    · intro i hi
      have hi' : s.pos + 1 ≤ i := hi
      exact h5 i (by omega)
    · intro w' hw'
      have hw2 : s.kst w' = KSt.done := hw'
      have := hdone w' hw2
      show s.pos + 1 = klasses.length
      omega
  | nextNone w h1 h2 =>
    have hplen : s.pos = klasses.length := by omega
    have hcc : ∀ i, (∑ x, if Function.update s.kst w KSt.done x
        = KSt.cleaning i then 1 else 0) = kCleaningCount s i :=
      kcc_fun_eq s.kst w KSt.done
        (fun j h => by rw [h1] at h; exact KSt.noConfusion h)
        (fun j h => KSt.noConfusion h)
    refine ⟨hpos, ?_, ?_, comp4_transfer s _ rfl rfl (fun i => hcc i) h4,
      comp5_transfer s _ rfl rfl (fun i => hcc i) h5, ?_⟩
    · have hupd := sum_ite_comp_update s.kst w KSt.done KSt.tree
      rw [h1, e_tl, e_td] at hupd
      show s.treeCount + (∑ x, if Function.update s.kst w KSt.done x
          = KSt.tree then 1 else 0) = if s.treeClaimed = true then 1 else 0
      unfold kTreeHolders at htree
      omega
    · intro hcl
      rcases hga hcl w with h | h <;> rw [h1] at h <;> exact KSt.noConfusion h
    · intro w' _
      show s.pos = klasses.length
      exact hplen
  | cleanStep w i h1 =>
    have hge := kCleaningCount_pos s w i h1
    have hposi : i < s.pos := by
      by_cases hip : i < s.pos
      · exact hip
      · obtain ⟨_, ha2⟩ := h5 i (by omega)
        omega
    have hinst : klasses.getD i false = true := by
      by_cases hb : klasses.getD i false = true
      · exact hb
      · have hb' : klasses.getD i false = false := by
          revert hb
          cases klasses.getD i false <;> simp
        obtain ⟨_, ha2⟩ := (h4 i hposi).2 hb'
        omega
    have hc1 := (h4 i hposi).1 hinst
    refine ⟨hpos, ?_, ?_, ?_, ?_, ?_⟩
    · have hupd := sum_ite_comp_update s.kst w KSt.looping KSt.tree
      rw [h1, e_tl] at hupd
      rw [show (if KSt.cleaning i = KSt.tree then (1 : Nat) else 0) = 0
        from rfl] at hupd
      show s.treeCount + (∑ x, if Function.update s.kst w KSt.looping x
          = KSt.tree then 1 else 0) = if s.treeClaimed = true then 1 else 0
      unfold kTreeHolders at htree
      omega
    · intro hcl
      rcases hga hcl w with h | h <;> rw [h1] at h <;> exact KSt.noConfusion h
    · intro i' hi'
      have hupd := sum_ite_comp_update s.kst w KSt.looping (KSt.cleaning i')
      rw [h1, ite_cleaning_eq i i'] at hupd
      rw [show (if KSt.looping = KSt.cleaning i' then (1 : Nat) else 0) = 0
        from rfl] at hupd
      have hi2 : i' < s.pos := hi'
      refine ⟨?_, ?_⟩
      · intro hinst'
        have h1' := (h4 i' hi2).1 hinst'
        show bump s.cleanCounts i i' + (∑ x, if Function.update s.kst w
            KSt.looping x = KSt.cleaning i' then 1 else 0) = 1
        rw [bump_apply]
        by_cases hii : i' = i
        · subst hii
          rw [if_pos rfl] at hupd ⊢
          unfold kCleaningCount at h1' hge
          omega
        · rw [if_neg hii]
          rw [if_neg (fun h => hii h.symm)] at hupd
          unfold kCleaningCount at h1'
          omega
      · intro hninst'
        have hii : ¬(i' = i) := by
          intro h
          subst h
          rw [hinst] at hninst'
          exact absurd hninst' (by decide)
        obtain ⟨ha1, ha2⟩ := (h4 i' hi2).2 hninst'
        rw [if_neg (fun h => hii h.symm)] at hupd
        refine ⟨?_, ?_⟩
        · show bump s.cleanCounts i i' = 0
          rw [bump_apply, if_neg hii, ha1]
        · show (∑ x, if Function.update s.kst w KSt.looping x
              = KSt.cleaning i' then 1 else 0) = 0
          unfold kCleaningCount at ha2
          omega
    · intro i' hi'
      have hi2 : s.pos ≤ i' := hi'
      obtain ⟨ha1, ha2⟩ := h5 i' hi2
      have hii : ¬(i' = i) := by omega
      have hupd := sum_ite_comp_update s.kst w KSt.looping (KSt.cleaning i')
      rw [h1, ite_cleaning_eq i i'] at hupd
      rw [show (if KSt.looping = KSt.cleaning i' then (1 : Nat) else 0) = 0
        from rfl] at hupd
      rw [if_neg (fun h => hii h.symm)] at hupd
      refine ⟨?_, ?_⟩
      · show bump s.cleanCounts i i' = 0
        rw [bump_apply, if_neg hii, ha1]
      · show (∑ x, if Function.update s.kst w KSt.looping x
            = KSt.cleaning i' then 1 else 0) = 0
        unfold kCleaningCount at ha2
        omega
    · intro w' hw'
      have hw2 : Function.update s.kst w KSt.looping w' = KSt.done := hw'
      show s.pos = klasses.length
      by_cases hww : w' = w
      · subst hww
        rw [Function.update_same] at hw2
        exact KSt.noConfusion hw2
      · rw [Function.update_noteq hww] at hw2
        exact hdone w' hw2

/-- Every reachable klass state satisfies the invariant. -/
theorem kInv_reachable (klasses : List Bool) (N : Nat) (s : KState N)
    (h : KReachable klasses N s) : KInv klasses s := by
  induction h with
  | refl => exact kInv_init klasses N
  | tail _ hstep ih => exact kInv_step ih hstep

/-- In a terminal reachable klass state the subclass-tree rebuild ran
exactly once, the iterator is exhausted, and every instance class was
cleaned exactly once while non-instance classes were never cleaned. -/
theorem kTerminal (klasses : List Bool) (N : Nat) (hN : 1 ≤ N)
    (s : KState N) (hre : KReachable klasses N s)
    (ht : ∀ w, s.kst w = KSt.done) :
    s.treeCount = 1 ∧ s.pos = klasses.length ∧
    ∀ i, i < klasses.length →
      s.cleanCounts i = if klasses.getD i false = true then 1 else 0 := by
  obtain ⟨hpos, htree, hga, h4, h5, hdone⟩ := kInv_reachable klasses N s hre
  have hplen : s.pos = klasses.length := hdone ⟨0, hN⟩ (ht ⟨0, hN⟩)
  have hclaimed : s.treeClaimed = true := by
    by_cases hcl : s.treeClaimed = true
    · exact hcl
    · have hcl' : s.treeClaimed = false := by
        revert hcl
        cases s.treeClaimed <;> simp
      rcases hga hcl' ⟨0, hN⟩ with h | h <;> rw [ht ⟨0, hN⟩] at h <;>
        exact KSt.noConfusion h
  have hth : kTreeHolders s = 0 := kTreeHolders_zero s fun w h => by
    rw [ht w] at h
    exact KSt.noConfusion h
  rw [hclaimed, if_pos rfl] at htree
  have hcc0 : ∀ i, kCleaningCount s i = 0 := fun i => by
    unfold kCleaningCount
    exact Finset.sum_eq_zero fun w _ => by
      rw [ht w]
      rfl
  refine ⟨by omega, hplen, ?_⟩
  intro i hi
  have hip : i < s.pos := by omega
  by_cases hb : klasses.getD i false = true
  · rw [if_pos hb]
    have h1 := (h4 i hip).1 hb
    rw [hcc0 i] at h1
    omega
  · have hb' : klasses.getD i false = false := by
      revert hb
      cases klasses.getD i false <;> simp
    rw [if_neg hb]
    exact ((h4 i hip).2 hb').1

/-- An event outside the klass phase is not a klass event. -/
theorem isKlassEv_false_of_phase (e : Ev) (h : phaseOf e ≠ 4) :
    isKlassEv e = false := by
  cases e <;> first | rfl | exact absurd rfl h

/-- Claim C5: when `ParallelCleaningTask` runs with
`unloading_occurred = false`, the klass-cleaning phase performs zero work
for every worker — no klass-phase event is emitted and neither the
subclass-tree gate nor the iterator position is touched; when
`unloading_occurred = true`, the klass pass (in every interleaving of
N ≥ 1 workers) runs both sub-units to completion: the rebuild exactly
once and every instance class cleaned. -/
theorem C5_conditional_klass_cleaning (de ej : Bool) (K M : Nat)
    (klasses klassesB : List Bool) (workerId : Nat) (st : SeqState)
    (N : Nat) (hN : 1 ≤ N) (s : KState N) (hre : KReachable klassesB N s)
    (ht : ∀ w, s.kst w = KSt.done) :
    ((parallelWorkSeq de ej K M klasses false workerId st).1.countP isKlassEv
        = 0 ∧
      (parallelWorkSeq de ej K M klasses false workerId st).2.treeClaimed
        = st.treeClaimed ∧
      (parallelWorkSeq de ej K M klasses false workerId st).2.klassPos
        = st.klassPos) ∧
    (s.treeCount = 1 ∧ s.pos = klassesB.length ∧
      ∀ i, i < klassesB.length →
        s.cleanCounts i = if klassesB.getD i false = true then 1 else 0) := by
  refine ⟨⟨?_, rfl, rfl⟩, kTerminal klassesB N hN s hre ht⟩
  apply List.countP_eq_zero.mpr
  intro a ha
  have hdecf : (parallelWorkSeq de ej K M klasses false workerId st).1
      = (jvmciWorkSeq ej false st.jvmciClaimed).1
        ++ (ccWorkSeqFull K M false workerId st.ccFirst st.ccCursor).1
        ++ stringDedupWork de workerId ++ [] := rfl
  rw [hdecf] at ha
  rw [List.mem_append, List.mem_append, List.mem_append] at ha
  have hph : phaseOf a ≠ 4 := by
    rcases ha with ((h | h) | h) | h
    · rw [phase_jvmci ej false st.jvmciClaimed a h]
      omega
    · rw [phase_cc K M false workerId st.ccFirst st.ccCursor a h]
      omega
    · rw [phase_dedup de workerId a h]
      omega
    · simp at h
  rw [isKlassEv_false_of_phase a hph]
  simp

/-- Witness for C5: with `unloading_occurred = true`, one worker over the
registry `[true]` rebuilds the subclass tree exactly once. -/
theorem C5_conditional_klass_cleaning_witness : kW6.treeCount = 1 :=
  (C5_conditional_klass_cleaning true true 1 1 [true] [true] 0 (seqInit 1)
    1 (by decide) kW6
    (Relation.ReflTransGen.head (KStep.loadZero (klassInit 1) 0 rfl rfl)
      (Relation.ReflTransGen.head (KStep.casWin kW1 0 (by decide) rfl)
        (Relation.ReflTransGen.head (KStep.treeStep kW2 0 (by decide))
          (Relation.ReflTransGen.head
            (KStep.nextInstance kW3 0 (by decide) (by decide) (by decide))
            (Relation.ReflTransGen.head (KStep.cleanStep kW4 0 0 (by decide))
              (Relation.ReflTransGen.head
                (KStep.nextNone kW5 0 (by decide) (by decide))
                Relation.ReflTransGen.refl))))))
    (by decide)).2.1

/-- Claim C6: `claim_next_klass` only ever hands out instance classes
(a worker about to clean always holds an instance class inside the
registry), and across all callers of one pass every instance class is
cleaned exactly once and no non-instance class is ever cleaned. -/
theorem C6_claim_next_klass_filtering (klasses : List Bool) (N : Nat)
    (hN : 1 ≤ N) (s : KState N) (hre : KReachable klasses N s) :
    (∀ (w : Fin N) (i : Nat), s.kst w = KSt.cleaning i →
      i < klasses.length ∧ klasses.getD i false = true) ∧
    ((∀ w, s.kst w = KSt.done) →
      ∀ i, i < klasses.length →
        s.cleanCounts i = if klasses.getD i false = true then 1 else 0) := by
  obtain ⟨hpos, htree, hga, h4, h5, hdone⟩ := kInv_reachable klasses N s hre
  constructor
  · intro w i hw
    have hge := kCleaningCount_pos s w i hw
    have hip : i < s.pos := by
      by_cases h : i < s.pos
      · exact h
      · obtain ⟨_, ha2⟩ := h5 i (by omega)
        omega
    have hinst : klasses.getD i false = true := by
      by_cases hb : klasses.getD i false = true
      · exact hb
      · have hb' : klasses.getD i false = false := by
          revert hb
          cases klasses.getD i false <;> simp
        obtain ⟨_, ha2⟩ := (h4 i hip).2 hb'
        omega
    exact ⟨by omega, hinst⟩
  · intro ht
    exact (kTerminal klasses N hN s hre ht).2.2

/-- Witness for C6: one worker over the registry `[false, true]` (a
non-instance class followed by an instance class) cleans the non-instance
class zero times. -/
theorem C6_claim_next_klass_filtering_witness :
    kX7.cleanCounts 0 = if [false, true].getD 0 false = true then 1 else 0 :=
  ((C6_claim_next_klass_filtering [false, true] 1 (by decide) kX7
    (Relation.ReflTransGen.head (KStep.loadZero (klassInit 1) 0 rfl rfl)
      (Relation.ReflTransGen.head (KStep.casWin kX1 0 (by decide) rfl)
        (Relation.ReflTransGen.head (KStep.treeStep kX2 0 (by decide))
          (Relation.ReflTransGen.head
            (KStep.nextSkip kX3 0 (by decide) (by decide) (by decide))
            (Relation.ReflTransGen.head
              (KStep.nextInstance kX4 0 (by decide) (by decide) (by decide))
              (Relation.ReflTransGen.head (KStep.cleanStep kX5 0 1 (by decide))
                (Relation.ReflTransGen.head
                  (KStep.nextNone kX6 0 (by decide) (by decide))
                  Relation.ReflTransGen.refl)))))))).2
    (by decide) 0 (by decide))

/-- Updating a worker's status swaps its pending contribution in the
global pending count. -/
theorem pend_fun_update {N : Nat} (g : Fin N → CCWSt) (w : Fin N)
    (v : CCWSt) (i : Nat) :
    (∑ x, (statusPend (Function.update g w v x)).count i)
        + (statusPend (g w)).count i
      = (∑ x, (statusPend (g x)).count i) + (statusPend v).count i :=
  sum_comp_update (fun st => (statusPend st).count i) g w v

/-- Updating a worker between two statuses with no pending units leaves
the global pending count unchanged. -/
theorem pend_fun_eq {N : Nat} (g : Fin N → CCWSt) (w : Fin N) (v : CCWSt)
    (hold : statusPend (g w) = []) (hnew : statusPend v = []) (i : Nat) :
    (∑ x, (statusPend (Function.update g w v x)).count i)
      = ∑ x, (statusPend (g x)).count i := by
  have h := pend_fun_update g w v i
  rw [hold, hnew, List.count_nil] at h
  omega

/-- A worker's own pending units contribute to the global pending
count. -/
theorem pend_pos {N : Nat} (s : CCState N) (w : Fin N) (l : List Nat)
    (h : s.wst w = CCWSt.unloading l) (j : Nat) (hj : j ∈ l) :
    1 ≤ pend s j := by
  unfold pend
  refine le_trans ?_ (Finset.single_le_sum
    (f := fun x => (statusPend (s.wst x)).count j)
    (fun i _ => Nat.zero_le _) (Finset.mem_univ w))
  show (1 : Nat) ≤ (statusPend (s.wst w)).count j
  rw [h]
  show (1 : Nat) ≤ l.count j
  have := List.count_pos_iff.mpr hj
  omega

/-- The code-cache invariant survives a step that only moves one worker
between two statuses with no pending units, no new `done` status and no
effect on the worker-0 sentinel bookkeeping. -/
theorem ccInv_wst_only {M N : Nat} (s : CCState N) (w : Fin N) (v : CCWSt)
    (hs : CCInv M s)
    (hold : statusPend (s.wst w) = []) (hnew : statusPend v = [])
    (hvd : v ≠ CCWSt.done)
    (hA : (s.firstNm = some 0 ∧ s.counts 0 = 0 ∧
        ∀ w' : Fin N, w'.val = 0 → s.wst w' = CCWSt.entry) → w.val ≠ 0) :
    CCInv M { s with wst := Function.update s.wst w v } := by
  obtain ⟨c, hcur, hcle, hAB, hp0, h4, h5, h7⟩ := hs
  have hpend : ∀ i, pend { s with wst := Function.update s.wst w v } i
      = pend s i := fun i => pend_fun_eq s.wst w v hold hnew i
  refine ⟨c, hcur, hcle, ?_, ?_, ?_, ?_, ?_⟩
  · rcases hAB with ⟨hf, hc0, hent⟩ | hB
    · left
      refine ⟨hf, hc0, ?_⟩
      intro w' h0
      have hne : w' ≠ w := by
        intro he
        subst he
        exact hA ⟨hf, hc0, hent⟩ h0
      show Function.update s.wst w v w' = CCWSt.entry
      rw [Function.update_noteq hne]
      exact hent w' h0
    · right
      exact hB
  · rw [hpend 0]
    exact hp0
  · intro i h1i hic
    rw [hpend i]
    exact h4 i h1i hic
  · intro i hic
    refine ⟨(h5 i hic).1, ?_⟩
    rw [hpend i]
    exact (h5 i hic).2
  · intro w' hw'
    have hw2 : Function.update s.wst w v w' = CCWSt.done := hw'
    by_cases hww : w' = w
    · subst hww
      rw [Function.update_same] at hw2
      exact absurd hw2 hvd
    · rw [Function.update_noteq hww] at hw2
      exact h7 w' hw2

/-- The code-cache invariant holds initially when units exist. -/
theorem ccInv_init (M N : Nat) (hM : 0 < M) : CCInv M (ccInit M N) := by
  have hpend0 : ∀ i, pend (ccInit M N) i = 0 := fun i => by
    unfold pend
    exact Finset.sum_eq_zero fun w _ => rfl
  refine ⟨0, ?_, Nat.zero_le _, ?_, hpend0 0, ?_, ?_, ?_⟩
  · show (codeCacheCtor M).2 = some 0
    simp [codeCacheCtor, hM]
  · left
    refine ⟨?_, rfl, fun w _ => rfl⟩
    show (codeCacheCtor M).1 = some 0
    simp [codeCacheCtor, hM]
  · intro i h1i hic
    omega
  · intro i _
    exact ⟨rfl, hpend0 i⟩
  · intro w h
    exact CCWSt.noConfusion h

/-- The code-cache invariant is preserved by every step. -/
theorem ccInv_step {M K N : Nat} (hM : 0 < M) (hK : 1 ≤ K)
    {s t : CCState N} (hs : CCInv M s) (hst : CCStep M K s t) : CCInv M t := by
  cases hst with
  | entrySentinel w f h1 h2 h3 =>
    obtain ⟨c, hcur, hcle, hAB, hp0, h4, h5, h7⟩ := hs
    rcases hAB with ⟨hf, hc0, hent⟩ | ⟨hfn, _⟩
    · rw [h3] at hf
      injection hf with hf0
      subst hf0
      have hpeq : ∀ i, (∑ x, (statusPend (Function.update s.wst w
          CCWSt.reading x)).count i) = ∑ x, (statusPend (s.wst x)).count i :=
        fun i => pend_fun_eq s.wst w CCWSt.reading (by rw [h1]; rfl) rfl i
      refine ⟨c, hcur, hcle, ?_, ?_, ?_, ?_, ?_⟩
      · right
        refine ⟨rfl, ?_⟩
        show bump s.counts 0 0 = 1
        rw [bump_apply, if_pos rfl, hc0]
      · show (∑ x, (statusPend (Function.update s.wst w
            CCWSt.reading x)).count 0) = 0
        rw [hpeq 0]
        exact hp0
      · intro i h1i hic
        show bump s.counts 0 i + (∑ x, (statusPend (Function.update s.wst w
            CCWSt.reading x)).count i) = 1
        rw [bump_apply, if_neg (by omega : ¬(i = 0)), hpeq i]
        exact h4 i h1i hic
      · intro i hic
        refine ⟨?_, ?_⟩
        · show bump s.counts 0 i = 0
          rw [bump_apply, if_neg (by omega : ¬(i = 0))]
          exact (h5 i hic).1
        · show (∑ x, (statusPend (Function.update s.wst w
              CCWSt.reading x)).count i) = 0
          rw [hpeq i]
          exact (h5 i hic).2
      · intro w' hw'
        have hw2 : Function.update s.wst w CCWSt.reading w' = CCWSt.done := hw'
        by_cases hww : w' = w
        · subst hww
          rw [Function.update_same] at hw2
          exact CCWSt.noConfusion hw2
        · rw [Function.update_noteq hww] at hw2
          exact h7 w' hw2
    · rw [h3] at hfn
      exact Option.noConfusion hfn
  | entrySkip w h1 h2 =>
    refine ccInv_wst_only s w CCWSt.reading hs (by rw [h1]; rfl) rfl
      (fun hh => CCWSt.noConfusion hh) ?_
    intro hA
    rcases h2 with h | h
    · exact h
    · rw [hA.1] at h
      exact Option.noConfusion h
  | readCursor w h1 =>
    refine ccInv_wst_only s w (CCWSt.casing s.cursor) hs (by rw [h1]; rfl) rfl
      (fun hh => CCWSt.noConfusion hh) ?_
    intro hA h0
    have hthis := hA.2.2 w h0
    rw [h1] at hthis
    exact CCWSt.noConfusion hthis
  | casFailure w f h1 h2 =>
    refine ccInv_wst_only s w CCWSt.reading hs (by rw [h1]; rfl) rfl
      (fun hh => CCWSt.noConfusion hh) ?_
    intro hA h0
    have hthis := hA.2.2 w h0
    rw [h1] at hthis
    exact CCWSt.noConfusion hthis
  | casSuccess w f h1 h2 =>
    obtain ⟨c, hcur, hcle, hAB, hp0, h4, h5, h7⟩ := hs
    rw [hcur] at h2
    have hf : f = some c := h2.symm
    subst hf
    by_cases hbe : (claimBatch K M (some c)).1 = []
    · rw [if_pos hbe]
      have hk0 : min K (M - 1 - c) = 0 := by
        have hb2 : List.range' (c + 1) (min K (M - 1 - c)) = [] := hbe
        rwa [List.range'_eq_nil] at hb2
      have hcM : c = M - 1 := by omega
      have hpeq : ∀ i, (∑ x, (statusPend (Function.update s.wst w
          CCWSt.done x)).count i) = ∑ x, (statusPend (s.wst x)).count i :=
        fun i => pend_fun_eq s.wst w CCWSt.done (by rw [h1]; rfl) rfl i
      refine ⟨c, ?_, hcle, ?_, ?_, ?_, ?_, ?_⟩
      · show (claimBatch K M (some c)).2 = some c
        show some (c + min K (M - 1 - c)) = some c
        rw [hk0, Nat.add_zero]
      · rcases hAB with ⟨hf2, hc0, hent⟩ | hB
        · left
          refine ⟨hf2, hc0, ?_⟩
          intro w' h0
          have hne : w' ≠ w := by
            intro he
            subst he
            have hthis := hent w' h0
            rw [h1] at hthis
            exact CCWSt.noConfusion hthis
          show Function.update s.wst w CCWSt.done w' = CCWSt.entry
          rw [Function.update_noteq hne]
          exact hent w' h0
        · right
          exact hB
      · show (∑ x, (statusPend (Function.update s.wst w
            CCWSt.done x)).count 0) = 0
        rw [hpeq 0]
        exact hp0
      · intro i h1i hic
        show s.counts i + (∑ x, (statusPend (Function.update s.wst w
            CCWSt.done x)).count i) = 1
        rw [hpeq i]
        exact h4 i h1i hic
      · intro i hic
        refine ⟨(h5 i hic).1, ?_⟩
        show (∑ x, (statusPend (Function.update s.wst w
            CCWSt.done x)).count i) = 0
        rw [hpeq i]
        exact (h5 i hic).2
      · intro w' _
        exact hcM
    · rw [if_neg hbe]
      have hk1 : 1 ≤ min K (M - 1 - c) := by
        have hne : min K (M - 1 - c) ≠ 0 := by
          intro h0
          apply hbe
          show List.range' (c + 1) (min K (M - 1 - c)) = []
          rw [h0]
          rfl
        omega
      have hmr := Nat.min_le_right K (M - 1 - c)
      have hcle2 : c + min K (M - 1 - c) ≤ M - 1 := by omega
      have hcnt : ∀ i, (List.range' (c + 1) (min K (M - 1 - c))).count i
          = if c + 1 ≤ i ∧ i < c + 1 + min K (M - 1 - c) then 1 else 0 := by
        intro i
        by_cases hmem : i ∈ List.range' (c + 1) (min K (M - 1 - c))
        · rw [List.count_eq_one_of_mem (List.nodup_range' _ _) hmem,
            if_pos (List.mem_range'_1.mp hmem)]
        · rw [List.count_eq_zero.mpr hmem,
            if_neg (fun hh => hmem (List.mem_range'_1.mpr hh))]
      have hbc : ∀ i, (statusPend (CCWSt.unloading
          (claimBatch K M (some c)).1)).count i
          = if c + 1 ≤ i ∧ i < c + 1 + min K (M - 1 - c) then 1 else 0 := by
        intro i
        show (List.range' (c + 1) (min K (M - 1 - c))).count i = _
        exact hcnt i
      have hupd : ∀ i, (∑ x, (statusPend (Function.update s.wst w
          (CCWSt.unloading (claimBatch K M (some c)).1) x)).count i)
          = pend s i
            + (if c + 1 ≤ i ∧ i < c + 1 + min K (M - 1 - c) then 1 else 0) := by
        intro i
        have h0 := pend_fun_update s.wst w
          (CCWSt.unloading (claimBatch K M (some c)).1) i
        rw [show statusPend (s.wst w) = [] from by rw [h1]; rfl,
          List.count_nil, hbc i] at h0
        unfold pend
        omega
      refine ⟨c + min K (M - 1 - c), ?_, hcle2, ?_, ?_, ?_, ?_, ?_⟩
      · show (claimBatch K M (some c)).2 = some (c + min K (M - 1 - c))
        rfl
      · rcases hAB with ⟨hf2, hc0, hent⟩ | hB
        · left
          refine ⟨hf2, hc0, ?_⟩
          intro w' h0
          have hne : w' ≠ w := by
            intro he
            subst he
            have hthis := hent w' h0
            rw [h1] at hthis
            exact CCWSt.noConfusion hthis
          show Function.update s.wst w
            (CCWSt.unloading (claimBatch K M (some c)).1) w' = CCWSt.entry
          rw [Function.update_noteq hne]
          exact hent w' h0
        · right
          exact hB
      · show (∑ x, (statusPend (Function.update s.wst w
            (CCWSt.unloading (claimBatch K M (some c)).1) x)).count 0) = 0
        rw [hupd 0, if_neg (by omega)]
        omega
      · intro i h1i hic
        show s.counts i + (∑ x, (statusPend (Function.update s.wst w
            (CCWSt.unloading (claimBatch K M (some c)).1) x)).count i) = 1
        rw [hupd i]
        by_cases hin : i ≤ c
        · rw [if_neg (by omega)]
          have h4' := h4 i h1i hin
          omega
        · rw [if_pos (by omega)]
          have h5' := h5 i (by omega)
          omega
      · intro i hic
        have h5' := h5 i (by omega)
        refine ⟨h5'.1, ?_⟩
        show (∑ x, (statusPend (Function.update s.wst w
            (CCWSt.unloading (claimBatch K M (some c)).1) x)).count i) = 0
        rw [hupd i, if_neg (by omega)]
        omega
      · intro w' hw'
        have hw2 : Function.update s.wst w
            (CCWSt.unloading (claimBatch K M (some c)).1) w' = CCWSt.done := hw'
        by_cases hww : w' = w
        · subst hww
          rw [Function.update_same] at hw2
          exact CCWSt.noConfusion hw2
        · rw [Function.update_noteq hww] at hw2
          have hthis := h7 w' hw2
          omega
  | unloadOne w u rest h1 =>
    obtain ⟨c, hcur, hcle, hAB, hp0, h4, h5, h7⟩ := hs
    have hpp := pend_pos s w (u :: rest) h1 u (List.mem_cons_self u rest)
    have hu0 : u ≠ 0 := by
      intro he
      subst he
      omega
    have huc : u ≤ c := by
      by_cases h : u ≤ c
      · exact h
      · have hz := (h5 u (by omega)).2
        omega
    have h4u := h4 u (by omega) huc
    have hcu1 : s.counts u = 0 := by omega
    have hcu2 : pend s u = 1 := by omega
    have hsp : statusPend (if rest = [] then CCWSt.reading
        else CCWSt.unloading rest) = rest := by
      by_cases h : rest = []
      · rw [if_pos h, h]
        rfl
      · rw [if_neg h]
        rfl
    have hvd : (if rest = [] then CCWSt.reading else CCWSt.unloading rest)
        ≠ CCWSt.done := by
      by_cases h : rest = []
      · rw [if_pos h]
        exact fun hh => CCWSt.noConfusion hh
      · rw [if_neg h]
        exact fun hh => CCWSt.noConfusion hh
    have hccons : ∀ i, (u :: rest).count i
        = rest.count i + (if u = i then 1 else 0) := by
      intro i
      rw [List.count_cons]
      by_cases h : u = i
      · subst h
        simp
      · simp [h]
    have hupd : ∀ i, (∑ x, (statusPend (Function.update s.wst w
        (if rest = [] then CCWSt.reading else CCWSt.unloading rest) x)).count i)
        + (u :: rest).count i
        = pend s i + rest.count i := by
      intro i
      have h0 := pend_fun_update s.wst w
        (if rest = [] then CCWSt.reading else CCWSt.unloading rest) i
      rw [show statusPend (s.wst w) = u :: rest from by rw [h1]; rfl, hsp] at h0
      unfold pend
      exact h0
    refine ⟨c, hcur, hcle, ?_, ?_, ?_, ?_, ?_⟩
    · rcases hAB with ⟨hf2, hc0, hent⟩ | ⟨hfn, hc1⟩
      · left
        refine ⟨hf2, ?_, ?_⟩
        · show bump s.counts u 0 = 0
          rw [bump_apply, if_neg (fun hh => hu0 hh.symm), hc0]
        · intro w' h0
          have hne : w' ≠ w := by
            intro he
            subst he
            have hthis := hent w' h0
            rw [h1] at hthis
            exact CCWSt.noConfusion hthis
          show Function.update s.wst w
            (if rest = [] then CCWSt.reading else CCWSt.unloading rest) w'
              = CCWSt.entry
          rw [Function.update_noteq hne]
          exact hent w' h0
      · right
        refine ⟨hfn, ?_⟩
        show bump s.counts u 0 = 1
        rw [bump_apply, if_neg (fun hh => hu0 hh.symm), hc1]
    · have h0 := hupd 0
      rw [hccons 0, if_neg (show ¬(u = 0) from fun hh => hu0 hh)] at h0
      show (∑ x, (statusPend (Function.update s.wst w
          (if rest = [] then CCWSt.reading else CCWSt.unloading rest) x)).count 0)
          = 0
      omega
    · intro i h1i hic
      show bump s.counts u i + (∑ x, (statusPend (Function.update s.wst w
          (if rest = [] then CCWSt.reading else CCWSt.unloading rest) x)).count i)
          = 1
      have h0 := hupd i
      rw [hccons i] at h0
      rw [bump_apply]
      by_cases hii : i = u
      · subst hii
        rw [if_pos (show i = i from rfl)]
        rw [if_pos (show i = i from rfl)] at h0
        omega
      · rw [if_neg (show ¬(i = u) from hii)]
        rw [if_neg (show ¬(u = i) from fun hh => hii hh.symm)] at h0
        have h4' := h4 i h1i hic
        omega
    · intro i hic
      have h5' := h5 i hic
      have hii : ¬(i = u) := by omega
      have h0 := hupd i
      rw [hccons i, if_neg (show ¬(u = i) from fun hh => hii hh.symm)] at h0
      refine ⟨?_, ?_⟩
      · show bump s.counts u i = 0
        rw [bump_apply, if_neg (show ¬(i = u) from hii)]
        exact h5'.1
      · show (∑ x, (statusPend (Function.update s.wst w
            (if rest = [] then CCWSt.reading else CCWSt.unloading rest) x)).count i)
            = 0
        omega
    · intro w' hw'
      have hw2 : Function.update s.wst w
          (if rest = [] then CCWSt.reading else CCWSt.unloading rest) w'
          = CCWSt.done := hw'
      by_cases hww : w' = w
      · subst hww
        rw [Function.update_same] at hw2
        exact absurd hw2 hvd
      · rw [Function.update_noteq hww] at hw2
        exact h7 w' hw2

/-- Every reachable code-cache state satisfies the invariant when units
exist. -/
theorem ccInv_reachable (M K N : Nat) (hM : 0 < M) (hK : 1 ≤ K)
    (s : CCState N) (h : CCReachable M K N s) : CCInv M s := by
  induction h with
  | refl => exact ccInv_init M N hM
  | tail _ hstep ih => exact ccInv_step hM hK ih hstep

/-- Claim C1: for every N ≥ 1 workers, every batch bound K ≥ 1 and every
registry of M ≥ 0 alive compiled units, in every interleaving of the
workers' `CodeCacheUnloadingTask::work` executions (claim races and the
worker-0 sentinel path included), once all workers have finished, each
alive unit's `do_unloading` has been invoked exactly once. -/
theorem C1_exactly_once_unload (N M K : Nat) (hN : 1 ≤ N) (hK : 1 ≤ K)
    (s : CCState N) (hre : CCReachable M K N s)
    (ht : ∀ w, s.wst w = CCWSt.done) :
    ∀ i, i < M → s.counts i = 1 := by
  intro i hi
  rcases Nat.eq_zero_or_pos M with hM0 | hM
  · omega
  · obtain ⟨c, hcur, hcle, hAB, hp0, h4, h5, h7⟩ :=
      ccInv_reachable M K N hM hK s hre
    have hc : c = M - 1 := h7 ⟨0, hN⟩ (ht ⟨0, hN⟩)
    have hpend : ∀ j, pend s j = 0 := fun j => by
      unfold pend
      exact Finset.sum_eq_zero fun w _ => by
        rw [ht w]
        rfl
    have hc0 : s.counts 0 = 1 := by
      rcases hAB with ⟨_, _, hent⟩ | ⟨_, hc1⟩
      · have hthis := hent ⟨0, hN⟩ rfl
        rw [ht ⟨0, hN⟩] at hthis
        exact CCWSt.noConfusion hthis
      · exact hc1
    by_cases hi0 : i = 0
    · subst hi0
      exact hc0
    · have h4' := h4 i (by omega) (by omega)
      rw [hpend i] at h4'
      omega

/-- Witness for C1: one worker, two alive units, batch bound 3; after the
sentinel unload, one claim and the final empty claim, both units are
unloaded exactly once. -/
theorem C1_exactly_once_unload_witness :
    ccV6.counts 0 = 1 ∧ ccV6.counts 1 = 1 := by
  have htr : CCReachable 2 3 1 ccV6 :=
    Relation.ReflTransGen.head
      (CCStep.entrySentinel (ccInit 2 1) 0 0 rfl rfl (by decide))
      (Relation.ReflTransGen.head (CCStep.readCursor ccV1 0 (by decide))
        (Relation.ReflTransGen.head
          (CCStep.casSuccess ccV2 0 (some 0) (by decide) (by decide))
          (Relation.ReflTransGen.head (CCStep.unloadOne ccV3 0 1 [] (by decide))
            (Relation.ReflTransGen.head (CCStep.readCursor ccV4 0 (by decide))
              (Relation.ReflTransGen.head
                (CCStep.casSuccess ccV5 0 (some 1) (by decide) (by decide))
                Relation.ReflTransGen.refl)))))
  exact ⟨C1_exactly_once_unload 1 2 3 (by decide) (by decide) ccV6 htr
      (by decide) 0 (by decide),
    C1_exactly_once_unload 1 2 3 (by decide) (by decide) ccV6 htr
      (by decide) 1 (by decide)⟩
